import Mathlib

/-!
Verification of the LSP subsystem of the open-ide repository.

The definitions below are shallow embeddings of the TypeScript sources:

* `src/adapters/clipboard.ts` — `StdioLspClient` (wire framing, JSON-RPC
  request bookkeeping, payload normalization).  Bytes are modelled as `Nat`,
  JSON values as the inductive `Json`, JavaScript `Map`s keyed by request id
  as lists of ids, and promise outcomes as explicit result values.
* `src/adapters/settings.ts` — `LspRuntime` (document lifecycle, debounced
  didChange, diagnostics fan-out).  The single-threaded async scheduling is
  modelled as a deterministic event simulator: each external event is an
  atomic step, and a task that awaits the in-flight open promise is enabled
  only once that promise has resolved.
-/

/-- JSON values as produced by `JSON.parse`.  JavaScript numbers are modelled
as integers (all numeric comparisons performed by the adapter are against
integer constants). -/
inductive Json where
  | null
  | bool (b : Bool)
  | num (n : Int)
  | str (s : String)
  | arr (elems : List Json)
  | obj (fields : List (String × Json))

/-- Property access `value[key]` on a JSON value: `none` models JavaScript
`undefined` (missing key or non-object receiver). -/
def jget (v : Json) (key : String) : Option Json :=
  match v with
  | .obj fields => (fields.find? (fun p => p.1 == key)).map (·.2)
  | _ => none

/-- Model of `isRecord` from clipboard.ts: a non-null, non-array object. -/
def isRecord (v : Json) : Bool :=
  match v with
  | .obj _ => true
  | _ => false

/-- Diagnostic severity after normalization (domain type
`Diagnostic["severity"]`). -/
inductive Severity where
  | error
  | warning
  | info
  | hint
deriving DecidableEq, Repr

/-- Model of `CursorPosition` from the domain types (zero-based line/column). -/
structure CursorPosition where
  line : Int
  column : Int
  offset : Int
deriving DecidableEq, Repr

/-- A diagnostic range (start/end positions). -/
structure DiagRange where
  start : CursorPosition
  stop : CursorPosition
deriving DecidableEq, Repr

/-- A normalized diagnostic code: string or number, when present. -/
inductive DiagCode where
  | str (s : String)
  | num (n : Int)
deriving DecidableEq, Repr

/-- Normalized `Diagnostic` (domain type). -/
structure Diagnostic where
  range : DiagRange
  severity : Severity
  message : String
  source : Option String
  code : Option DiagCode
deriving DecidableEq, Repr

/-- Model of `normalizeSeverity` (clipboard.ts): LSP severities 1-4 map to
error/warning/info/hint; anything else (including a missing field) falls back
to `error`. -/
def normalizeSeverity (severity : Option Json) : Severity :=
  match severity with
  | some (.num n) =>
    if n = 1 then .error
    else if n = 2 then .warning
    else if n = 3 then .info
    else if n = 4 then .hint
    else .error
  | _ => .error

/-- Model of `normalizePosition` (clipboard.ts): requires numeric `line` and
`character` fields; the offset is not carried by LSP positions. -/
def normalizePosition (position : Option Json) : Option CursorPosition :=
  match position with
  | some (.obj fields) =>
    match jget (.obj fields) "line", jget (.obj fields) "character" with
    | some (.num line), some (.num character) =>
      some { line := line, column := character, offset := 0 }
    | _, _ => none
  | _ => none

/-- Model of `normalizeRange` (clipboard.ts): both endpoints must validate. -/
def normalizeRange (range : Option Json) : Option DiagRange :=
  match range with
  | some (.obj fields) =>
    match normalizePosition (jget (.obj fields) "start"),
          normalizePosition (jget (.obj fields) "end") with
    | some s, some e => some { start := s, stop := e }
    | _, _ => none
  | _ => none

/-- Model of `normalizeDiagnosticCode` (clipboard.ts). -/
def normalizeDiagnosticCode (code : Option Json) : Option DiagCode :=
  match code with
  | some (.str s) => some (.str s)
  | some (.num n) => some (.num n)
  | some (.obj fields) =>
    match jget (.obj fields) "value" with
    | some (.str s) => some (.str s)
    | some (.num n) => some (.num n)
    | _ => none
  | _ => none

/-- Model of `normalizeDiagnostic` (clipboard.ts): drops the entry unless the range
validates and the message is a non-empty string. -/
def normalizeDiagnostic (input : Json) : Option Diagnostic :=
  match input with
  | .obj fields =>
    match normalizeRange (jget (.obj fields) "range") with
    | none => none
    | some range =>
      let message :=
        match jget (.obj fields) "message" with
        | some (.str s) => s
        | _ => ""
      if message = "" then none
      else
        some
          { range := range
            severity := normalizeSeverity (jget (.obj fields) "severity")
            message := message
            source :=
              match jget (.obj fields) "source" with
              | some (.str s) => some s
              | _ => none
            code := normalizeDiagnosticCode (jget (.obj fields) "code") }
  | _ => none

/-- Model of `normalizePublishDiagnosticsParams` (clipboard.ts): requires a string
`uri` and an array `diagnostics`; malformed entries are dropped. -/
def normalizePublishDiagnosticsParams (params : Json) :
    Option (String × List Diagnostic) :=
  match params with
  | .obj fields =>
    match jget (.obj fields) "uri", jget (.obj fields) "diagnostics" with
    | some (.str uri), some (.arr ds) =>
      some (uri, ds.filterMap normalizeDiagnostic)
    | _, _ => none
  | _ => none

/-- Normalized `CompletionItem` (domain type). -/
structure CompletionItem where
  label : String
  kind : String
  detail : Option String
  documentation : Option String
  insertText : Option String
  sortText : Option String
deriving DecidableEq, Repr

/-- Model of `COMPLETION_KIND_MAP` (clipboard.ts): LSP numeric completion kinds. -/
def completionKindMap (n : Int) : Option String :=
  if n = 1 then some "text"
  else if n = 2 then some "method"
  else if n = 3 then some "function"
  else if n = 4 then some "constructor"
  else if n = 5 then some "field"
  else if n = 6 then some "variable"
  else if n = 7 then some "class"
  else if n = 8 then some "interface"
  else if n = 9 then some "module"
  else if n = 10 then some "property"
  else if n = 11 then some "unit"
  else if n = 12 then some "value"
  else if n = 13 then some "enum"
  else if n = 14 then some "keyword"
  else if n = 15 then some "snippet"
  else if n = 16 then some "color"
  else if n = 17 then some "file"
  else if n = 18 then some "reference"
  else if n = 19 then some "folder"
  else if n = 20 then some "enumMember"
  else if n = 21 then some "constant"
  else if n = 22 then some "struct"
  else if n = 23 then some "event"
  else if n = 24 then some "operator"
  else if n = 25 then some "typeParameter"
  else none

/-- Model of `normalizeDocumentation` (clipboard.ts). -/
def normalizeDocumentation (documentation : Option Json) : Option String :=
  match documentation with
  | some (.str s) => some s
  | some (.obj fields) =>
    match jget (.obj fields) "value" with
    | some (.str s) => some s
    | _ => none
  | _ => none

/-- Model of `normalizeCompletionItem` (clipboard.ts): requires a non-empty string
label; a numeric kind is looked up in the kind map with fallback "text". -/
def normalizeCompletionItem (input : Json) : Option CompletionItem :=
  match input with
  | .obj fields =>
    match jget (.obj fields) "label" with
    | some (.str label) =>
      if label = "" then none
      else
        let kind :=
          match jget (.obj fields) "kind" with
          | some (.num n) => (completionKindMap n).getD "text"
          | _ => "text"
        some
          { label := label
            kind := kind
            detail :=
              match jget (.obj fields) "detail" with
              | some (.str s) => some s
              | _ => none
            documentation := normalizeDocumentation (jget (.obj fields) "documentation")
            insertText :=
              match jget (.obj fields) "insertText" with
              | some (.str s) => some s
              | _ => none
            sortText :=
              match jget (.obj fields) "sortText" with
              | some (.str s) => some s
              | _ => none }
    | _ => none
  | _ => none

/-- Model of `normalizeCompletionList` (clipboard.ts): accepts a bare array or a
`CompletionList`-shaped record with an `items` array; anything else yields an
empty list. -/
def normalizeCompletionList (result : Json) : List CompletionItem :=
  match result with
  | .arr items => items.filterMap normalizeCompletionItem
  | .obj fields =>
    match jget (.obj fields) "items" with
    | some (.arr items) => items.filterMap normalizeCompletionItem
    | _ => []
  | _ => []

/-- Normalized `HoverInfo` (domain type). -/
structure HoverInfo where
  contents : String
  range : Option DiagRange
deriving DecidableEq, Repr

/-- Model of `normalizeHoverContents` (clipboard.ts): a string stands for itself, a
record contributes its string `value` field, arrays are flattened and joined
with blank lines; everything else becomes the empty string.  (The source's
third branch, for records carrying `language` and `value`, is unreachable:
the preceding branch already returns whenever `value` is a string.) -/
def normalizeHoverContents (contents : Json) : String :=
  match contents with
  | .str s => s
  | .obj fields =>
    match jget (.obj fields) "value" with
    | some (.str s) => s
    | _ => ""
  | .arr items =>
    let parts :=
      (items.attach.map (fun x => normalizeHoverContents x.1)).filter
        (fun part => part.length > 0)
    String.intercalate "\n\n" parts
  | _ => ""
termination_by sizeOf contents
decreasing_by
  have := List.sizeOf_lt_of_mem x.2
  simp only [Json.arr.sizeOf_spec]
  omega

/-- Model of `normalizeHoverContents` applied to a possibly-missing field. -/
def normalizeHoverContentsOpt (contents : Option Json) : String :=
  match contents with
  | some c => normalizeHoverContents c
  | none => ""

/-- Model of `normalizeHoverResult` (clipboard.ts): requires a record whose contents
normalize to a non-empty string. -/
def normalizeHoverResult (result : Json) : Option HoverInfo :=
  match result with
  | .obj fields =>
    let contents := normalizeHoverContentsOpt (jget (.obj fields) "contents")
    if contents = "" then none
    else some { contents := contents, range := normalizeRange (jget (.obj fields) "range") }
  | _ => none

/-- State of one `StdioLspClient` (clipboard.ts).  `pending` models the key
set of the `pendingRequests` map (insertion order; keys are unique because
each key is a freshly allocated id).  Request ids are JavaScript numbers,
modelled as integers. -/
structure ClientState where
  language : String
  nextRequestId : Int
  pending : List Int
  closed : Bool
deriving DecidableEq, Repr

/-- A fresh client: `nextRequestId = 1`, no pending requests, not closed. -/
def initClient (language : String) : ClientState :=
  { language := language, nextRequestId := 1, pending := [], closed := false }

/-- Model of `sendRequest` (clipboard.ts): throws when the client is closed (`none`);
otherwise allocates `id = nextRequestId++` and registers the pending entry. -/
def sendRequest (st : ClientState) : Option (Int × ClientState) :=
  if st.closed then none
  else
    some (st.nextRequestId,
      { st with
        nextRequestId := st.nextRequestId + 1
        pending := st.pending ++ [st.nextRequestId] })

/-- The id field of an incoming response: a JavaScript number or anything
else (`typeof id !== "number"`). -/
inductive RespId where
  | num (i : Int)
  | other
deriving DecidableEq, Repr

/-- Model of `handleResponse` (clipboard.ts): a non-numeric id or an id with no
pending entry is ignored; otherwise the entry is removed (its timeout is
cleared and the promise settled). -/
def handleResponse (st : ClientState) (id : RespId) : ClientState :=
  match id with
  | .other => st
  | .num i =>
    if i ∈ st.pending then
      { st with pending := st.pending.filter (fun j => j != i) }
    else st

/-- The message built by the `sendRequest` timeout callback (clipboard.ts):
a template literal over the client's language and the request method. -/
def requestTimeoutMessage (language method : String) : String :=
  "[LSP:" ++ language ++ "] Request timeout for " ++ method

/-- The `setTimeout` callback registered by `sendRequest` (clipboard.ts):
deletes the pending entry and rejects the caller's promise with the timeout
message.  Nothing else in the client is touched. -/
def fireTimeout (st : ClientState) (id : Int) (method : String) :
    ClientState × String :=
  ({ st with pending := st.pending.filter (fun j => j != id) },
    requestTimeoutMessage st.language method)

/-- Model of `handleProcessClosed` (clipboard.ts): marks the client closed and rejects
every pending request. -/
def handleProcessClosed (st : ClientState) : ClientState :=
  if st.closed then st
  else { st with closed := true, pending := [] }

/-- One interaction with a client, as seen by its bookkeeping state. -/
inductive ClientOp where
  | send
  | response (id : RespId)
  | timeout (id : Int) (method : String)
  | procClosed
deriving Repr

/-- Step a client by one operation, reporting the allocated request id when
the operation was a successful `sendRequest`. -/
def clientStep (st : ClientState) (op : ClientOp) : ClientState × Option Int :=
  match op with
  | .send =>
    match sendRequest st with
    | none => (st, none)
    | some (id, st') => (st', some id)
  | .response id => (handleResponse st id, none)
  | .timeout id method => ((fireTimeout st id method).1, none)
  | .procClosed => (handleProcessClosed st, none)

/-- Run a sequence of operations, accumulating the assigned request ids in
order. -/
def clientRunFrom (st : ClientState) (acc : List Int) (ops : List ClientOp) :
    ClientState × List Int :=
  match ops with
  | [] => (st, acc)
  | op :: rest =>
    let (st', assigned) := clientStep st op
    clientRunFrom st' (acc ++ assigned.toList) rest

/-- The ordered list of request ids a client assigns over its lifetime. -/
def assignedIds (language : String) (ops : List ClientOp) : List Int :=
  (clientRunFrom (initClient language) [] ops).2

/-- Outcome of an awaited request promise: resolution value or rejection
message. -/
inductive ReqOutcome (α : Type) where
  | ok (value : α)
  | err (msg : String)
deriving DecidableEq, Repr

/-- The outcome of `sendRequest`'s promise when its timeout fires before a
response arrives (clipboard.ts): rejection with the timeout message. -/
def sendRequestTimedOut (st : ClientState) (method : String) : ReqOutcome Json :=
  .err (requestTimeoutMessage st.language method)

/-- Model of `completion` (clipboard.ts): awaits `sendRequest` — there is no catch, so
a rejection propagates to the caller — and normalizes a resolved value. -/
def completionOutcome (r : ReqOutcome Json) : ReqOutcome (List CompletionItem) :=
  match r with
  | .err msg => .err msg
  | .ok v => .ok (normalizeCompletionList v)

/-- Model of `hover` (clipboard.ts): awaits `sendRequest` — no catch, rejections
propagate — and normalizes a resolved value (`null` hover for no results). -/
def hoverOutcome (r : ReqOutcome Json) : ReqOutcome (Option HoverInfo) :=
  match r with
  | .err msg => .err msg
  | .ok v => .ok (normalizeHoverResult v)

/-- Does the byte buffer start with the header terminator `\r\n\r\n`
(bytes 13 10 13 10)?  This is the comparison performed at one scan position
of `findHeaderEnd` (clipboard.ts). -/
def headerBreakHere (buffer : List Nat) : Bool :=
  match buffer with
  | a :: b :: c :: d :: _ => a == 13 && b == 10 && c == 13 && d == 10
  | _ => false

/-- Model of `findHeaderEnd` (clipboard.ts): index of the first occurrence of
`\r\n\r\n`, or `none` (the source's `-1`). -/
def findHeaderEnd (buffer : List Nat) : Option Nat :=
  match buffer with
  | [] => none
  | _ :: rest =>
    if headerBreakHere buffer then some 0
    else (findHeaderEnd rest).map (· + 1)

/-- Split a byte list on `\r\n` separators — `headers.split("\r\n")` in
`parseContentLength` (clipboard.ts). -/
def splitCRLF (bytes : List Nat) : List (List Nat) :=
  match bytes with
  | [] => [[]]
  | 13 :: 10 :: rest => [] :: splitCRLF rest
  | b :: rest =>
    match splitCRLF rest with
    | [] => [[b]]
    | line :: lines => (b :: line) :: lines

/-- JavaScript `String.trim` on an ASCII header line: strip leading and
trailing whitespace bytes. -/
def trimBytes (line : List Nat) : List Nat :=
  let ws := fun b : Nat => b == 32 || b == 9 || b == 10 || b == 13 || b == 11 || b == 12
  (line.dropWhile ws).reverse.dropWhile ws |>.reverse

/-- ASCII `toLowerCase` on bytes. -/
def lowerBytes (line : List Nat) : List Nat :=
  line.map (fun b => if 65 ≤ b ∧ b ≤ 90 then b + 32 else b)

/-- The bytes of the ASCII string "content-length". -/
def contentLengthKey : List Nat :=
  [99, 111, 110, 116, 101, 110, 116, 45, 108, 101, 110, 103, 116, 104]

/-- Model of `Number.parseInt(value, 10)` on a trimmed ASCII value: optional sign,
then leading decimal digits; `none` models `NaN` (no digits). -/
def parseIntDec (value : List Nat) : Option Int :=
  let core := fun (digits : List Nat) =>
    if digits.isEmpty then (none : Option Nat)
    else some (digits.foldl (fun acc d => acc * 10 + (d - 48)) 0)
  match value with
  | 45 :: rest => ((core (rest.takeWhile (fun b => 48 ≤ b ∧ b ≤ 57))).map
      (fun n => -(n : Int)))
  | 43 :: rest => ((core (rest.takeWhile (fun b => 48 ≤ b ∧ b ≤ 57))).map
      (fun n => (n : Int)))
  | _ => ((core (value.takeWhile (fun b => 48 ≤ b ∧ b ≤ 57))).map
      (fun n => (n : Int)))

/-- Model of `parseContentLength` (clipboard.ts): scan the header lines for the first
one whose (trimmed, lowercased) key before the `:` is `content-length`; parse
its value as a decimal integer, rejecting `NaN` and negatives.  Lines without
a colon or with a different key are skipped. -/
def parseContentLength (headers : List Nat) : Option Nat :=
  parseContentLengthLines (splitCRLF headers)
where
  parseContentLengthLines : List (List Nat) → Option Nat
    | [] => none
    | line :: rest =>
      match line.findIdx? (fun b => b == 58) with
      | none => parseContentLengthLines rest
      | some i =>
        let key := lowerBytes (trimBytes (line.take i))
        if key = contentLengthKey then
          match parseIntDec (trimBytes (line.drop (i + 1))) with
          | none => none
          | some v => if v < 0 then none else some v.toNat
        else parseContentLengthLines rest

theorem headerBreakHere_iff (buffer : List Nat) :
    headerBreakHere buffer = true ↔ buffer.take 4 = [13, 10, 13, 10] := by
  rcases buffer with _ | ⟨a, _ | ⟨b, _ | ⟨c, _ | ⟨d, rest⟩⟩⟩⟩ <;>
    simp [headerBreakHere, and_assoc]

theorem findHeaderEnd_bound {buffer : List Nat} {h : Nat}
    (hfind : findHeaderEnd buffer = some h) : h + 4 ≤ buffer.length := by
  induction buffer generalizing h with
  | nil => simp [findHeaderEnd] at hfind
  | cons a rest ih =>
    rw [findHeaderEnd] at hfind
    by_cases hb : headerBreakHere (a :: rest) = true
    · rw [if_pos hb] at hfind
      obtain rfl : h = 0 := by simpa using hfind.symm
      have htake := (headerBreakHere_iff _).mp hb
      have : ((a :: rest).take 4).length = 4 := by rw [htake]; rfl
      simp only [List.length_take] at this
      omega
    · rw [if_neg hb] at hfind
      rcases Option.map_eq_some'.mp hfind with ⟨h₁, hfind₁, rfl⟩
      have := ih hfind₁
      simp only [List.length_cons]
      omega

theorem findHeaderEnd_append {buffer ext : List Nat} {h : Nat}
    (hfind : findHeaderEnd buffer = some h) :
    findHeaderEnd (buffer ++ ext) = some h := by
  induction buffer generalizing h with
  | nil => simp [findHeaderEnd] at hfind
  | cons a rest ih =>
    have hlen : h + 4 ≤ (a :: rest).length := findHeaderEnd_bound hfind
    have hlen4 : 4 ≤ (a :: rest).length := by omega
    have hbreak : headerBreakHere ((a :: rest) ++ ext) = headerBreakHere (a :: rest) := by
      rcases hcase : headerBreakHere (a :: rest) with _ | _
      · rcases hcase' : headerBreakHere ((a :: rest) ++ ext) with _ | _
        · rfl
        · exfalso
          have htake := (headerBreakHere_iff _).mp hcase'
          rw [List.take_append_of_le_length hlen4] at htake
          exact absurd ((headerBreakHere_iff _).mpr htake) (by simp [hcase])
      · have htake := (headerBreakHere_iff _).mp hcase
        exact (headerBreakHere_iff _).mpr
          (by rw [List.take_append_of_le_length hlen4]; exact htake)
    rw [findHeaderEnd] at hfind
    rw [List.cons_append, findHeaderEnd, ← List.cons_append, hbreak]
    by_cases hb : headerBreakHere (a :: rest) = true
    · rw [if_pos hb] at hfind ⊢
      exact hfind
    · rw [if_neg hb] at hfind ⊢
      rcases Option.map_eq_some'.mp hfind with ⟨h₁, hfind₁, rfl⟩
      rw [ih hfind₁]
      rfl

/-- The `while (true)` extraction loop of `consumeChunk` (clipboard.ts),
acting on the receive buffer: repeatedly find the header terminator, parse
`Content-Length`, and either skip a malformed header block, wait for more
bytes, or extract the message body.  Returns the remaining receive buffer and
the extracted message bodies in order. -/
def consumeChunkLoop (buffer : List Nat) : List Nat × List (List Nat) :=
  match _hfe : findHeaderEnd buffer with
  | none => (buffer, [])
  | some headerEnd =>
    let headerBytes := buffer.take headerEnd
    let bodyStart := headerEnd + 4
    match parseContentLength headerBytes with
    | none =>
      -- Skip invalid header and continue parsing.
      consumeChunkLoop (buffer.drop bodyStart)
    | some contentLength =>
      let bodyEnd := bodyStart + contentLength
      if buffer.length < bodyEnd then (buffer, [])
      else
        let body := (buffer.drop bodyStart).take contentLength
        let (rest, msgs) := consumeChunkLoop (buffer.drop bodyEnd)
        (rest, body :: msgs)
termination_by buffer.length
decreasing_by
  · have := findHeaderEnd_bound _hfe
    simp only [List.length_drop]
    omega
  · have := findHeaderEnd_bound _hfe
    simp only [List.length_drop]
    omega

/-- Model of `consumeChunk` (clipboard.ts): append the chunk to the receive buffer,
then run the extraction loop. -/
def consumeChunk (buffer chunk : List Nat) : List Nat × List (List Nat) :=
  consumeChunkLoop (buffer ++ chunk)

/-- Feed a sequence of chunks to a fresh client, accumulating the extracted
message bodies in arrival order. -/
def consumeChunks (chunks : List (List Nat)) : List Nat × List (List Nat) :=
  chunks.foldl
    (fun acc chunk =>
      let out := consumeChunk acc.1 chunk
      (out.1, acc.2 ++ out.2))
    ([], [])

theorem consumeChunkLoop_eq_none {buffer : List Nat}
    (hfe : findHeaderEnd buffer = none) :
    consumeChunkLoop buffer = (buffer, []) := by
  rw [consumeChunkLoop]
  split
  · rfl
  · next h heq => rw [hfe] at heq; cases heq

theorem consumeChunkLoop_eq_badheader {buffer : List Nat} {h : Nat}
    (hfe : findHeaderEnd buffer = some h)
    (hp : parseContentLength (buffer.take h) = none) :
    consumeChunkLoop buffer = consumeChunkLoop (buffer.drop (h + 4)) := by
  rw [consumeChunkLoop]
  split
  · next heq => rw [hfe] at heq; cases heq
  · next h' heq =>
      rw [hfe] at heq
      cases heq
      simp [hp]

theorem consumeChunkLoop_eq_incomplete {buffer : List Nat} {h n : Nat}
    (hfe : findHeaderEnd buffer = some h)
    (hp : parseContentLength (buffer.take h) = some n)
    (hlen : buffer.length < h + 4 + n) :
    consumeChunkLoop buffer = (buffer, []) := by
  rw [consumeChunkLoop]
  split
  · rfl
  · next h' heq =>
      rw [hfe] at heq
      cases heq
      simp [hp, hlen]

theorem consumeChunkLoop_eq_extract {buffer : List Nat} {h n : Nat}
    (hfe : findHeaderEnd buffer = some h)
    (hp : parseContentLength (buffer.take h) = some n)
    (hlen : ¬buffer.length < h + 4 + n) :
    consumeChunkLoop buffer =
      ((consumeChunkLoop (buffer.drop (h + 4 + n))).1,
        (buffer.drop (h + 4)).take n :: (consumeChunkLoop (buffer.drop (h + 4 + n))).2) := by
  rw [consumeChunkLoop]
  split
  · next heq => rw [hfe] at heq; cases heq
  · next h' heq =>
      rw [hfe] at heq
      cases heq
      simp [hp, hlen]

theorem consumeChunkLoop_append (ext buffer : List Nat) :
    consumeChunkLoop (buffer ++ ext) =
      ((consumeChunkLoop ((consumeChunkLoop buffer).1 ++ ext)).1,
        (consumeChunkLoop buffer).2 ++
          (consumeChunkLoop ((consumeChunkLoop buffer).1 ++ ext)).2) := by
  induction buffer using consumeChunkLoop.induct with
  | case1 buffer hfe =>
    rw [consumeChunkLoop_eq_none hfe]
    simp
  | case2 buffer h hfe hB bS hp ih =>
    have hbound := findHeaderEnd_bound hfe
    have hfe' : findHeaderEnd (buffer ++ ext) = some h := findHeaderEnd_append hfe
    have htake : (buffer ++ ext).take h = buffer.take h :=
      List.take_append_of_le_length (by omega)
    have hdrop : (buffer ++ ext).drop (h + 4) = buffer.drop (h + 4) ++ ext :=
      List.drop_append_of_le_length (by omega)
    rw [consumeChunkLoop_eq_badheader hfe' (by rw [htake]; exact hp), hdrop,
      consumeChunkLoop_eq_badheader hfe hp]
    exact ih
  | case3 buffer h hfe hB bS n hp bE hlen =>
    rw [consumeChunkLoop_eq_incomplete hfe hp (by omega)]
    simp
  | case4 buffer h hfe hB bS n hp bE hlen rest msgs hrec ih =>
    have hbound := findHeaderEnd_bound hfe
    have hfe' : findHeaderEnd (buffer ++ ext) = some h := findHeaderEnd_append hfe
    have htake : (buffer ++ ext).take h = buffer.take h :=
      List.take_append_of_le_length (by omega)
    have hdropS : (buffer ++ ext).drop (h + 4) = buffer.drop (h + 4) ++ ext :=
      List.drop_append_of_le_length (by omega)
    have hdropE : (buffer ++ ext).drop (h + 4 + n) = buffer.drop (h + 4 + n) ++ ext :=
      List.drop_append_of_le_length (by omega)
    have hbody : ((buffer ++ ext).drop (h + 4)).take n = (buffer.drop (h + 4)).take n := by
      rw [hdropS]
      exact List.take_append_of_le_length (by simp only [List.length_drop]; omega)
    have hlen' : ¬(buffer ++ ext).length < h + 4 + n := by
      simp only [List.length_append]
      omega
    rw [consumeChunkLoop_eq_extract hfe' (by rw [htake]; exact hp) hlen', hdropE,
      consumeChunkLoop_eq_extract hfe hp (by omega), hbody, ih]
    simp

theorem consumeChunkLoop_quiescent (buffer : List Nat) :
    consumeChunkLoop (consumeChunkLoop buffer).1 = ((consumeChunkLoop buffer).1, []) := by
  induction buffer using consumeChunkLoop.induct with
  | case1 buffer hfe =>
    rw [consumeChunkLoop_eq_none hfe]
    exact consumeChunkLoop_eq_none hfe
  | case2 buffer h hfe hB bS hp ih =>
    rw [consumeChunkLoop_eq_badheader hfe hp]
    exact ih
  | case3 buffer h hfe hB bS n hp bE hlen =>
    rw [consumeChunkLoop_eq_incomplete hfe hp (by omega)]
    show consumeChunkLoop buffer = (buffer, [])
    exact consumeChunkLoop_eq_incomplete hfe hp (by omega)
  | case4 buffer h hfe hB bS n hp bE hlen rest msgs hrec ih =>
    rw [consumeChunkLoop_eq_extract hfe hp (by omega)]
    exact ih

theorem consumeChunks_foldFrom (chunks : List (List Nat)) :
    ∀ (buffer : List Nat) (acc : List (List Nat)),
      consumeChunkLoop buffer = (buffer, []) →
      chunks.foldl
          (fun acc chunk =>
            let out := consumeChunk acc.1 chunk
            (out.1, acc.2 ++ out.2))
          (buffer, acc) =
        ((consumeChunkLoop (buffer ++ chunks.flatten)).1,
          acc ++ (consumeChunkLoop (buffer ++ chunks.flatten)).2) := by
  induction chunks with
  | nil =>
    intro buffer acc hq
    simp [hq]
  | cons c cs ih =>
    intro buffer acc hq
    simp only [List.foldl_cons, List.flatten_cons]
    rw [consumeChunk]
    have hq1 : consumeChunkLoop (consumeChunkLoop (buffer ++ c)).1 =
        ((consumeChunkLoop (buffer ++ c)).1, []) := consumeChunkLoop_quiescent _
    rw [ih (consumeChunkLoop (buffer ++ c)).1 _ hq1]
    rw [← List.append_assoc buffer c cs.flatten,
      consumeChunkLoop_append cs.flatten (buffer ++ c)]
    simp

/-- C1: feeding a byte stream to `consumeChunk` split into any number of
pieces at any split points produces exactly the same ordered sequence of
extracted message bodies — and hence, after the deterministic `JSON.parse`
of each body, the same ordered sequence of parsed JSON messages — as feeding
the whole stream as one chunk.  (Proved for every byte stream, in particular
for every well-formed framed stream.)  The remaining receive buffer also
agrees. -/
theorem C1_chunking_invariance (chunks : List (List Nat)) :
    consumeChunks chunks = consumeChunks [chunks.flatten] := by
  have hq : consumeChunkLoop ([] : List Nat) = ([], []) :=
    consumeChunkLoop_eq_none rfl
  unfold consumeChunks
  rw [consumeChunks_foldFrom chunks [] [] hq]
  simp [consumeChunk]

theorem chain_append_singleton {acc : List Int} {v : Int}
    (hchain : acc.Chain' (· < ·)) (hlt : ∀ j ∈ acc, j < v) :
    (acc ++ [v]).Chain' (· < ·) := by
  rw [List.chain'_append]
  refine ⟨hchain, List.chain'_singleton v, ?_⟩
  intro x hx y hy
  simp only [List.head?_cons, Option.mem_def, Option.some.injEq] at hy
  subst hy
  exact hlt x (List.mem_of_mem_getLast? hx)

theorem clientRunFrom_chain (ops : List ClientOp) :
    ∀ (st : ClientState) (acc : List Int),
      acc.Chain' (· < ·) →
      (∀ j ∈ acc, j < st.nextRequestId) →
      (clientRunFrom st acc ops).2.Chain' (· < ·) := by
  induction ops with
  | nil =>
    intro st acc hchain _
    simpa [clientRunFrom] using hchain
  | cons op rest ih =>
    intro st acc hchain hlt
    match op with
    | .send =>
      by_cases hc : st.closed
      · simp only [clientRunFrom, clientStep, sendRequest, if_pos hc]
        exact ih st _ (by simpa using hchain) (by simpa using hlt)
      · simp only [clientRunFrom, clientStep, sendRequest, if_neg hc]
        refine ih _ _ ?_ ?_
        · simpa using chain_append_singleton hchain hlt
        · intro j hj
          simp only [Option.toList_some, List.mem_append, List.mem_singleton] at hj
          rcases hj with hj | rfl
          · have := hlt j hj
            simp only
            omega
          · simp only
            omega
    | .response id =>
      simp only [clientRunFrom, clientStep]
      refine ih _ _ (by simpa using hchain) ?_
      intro j hj
      have hj' : j ∈ acc := by simpa using hj
      have : (handleResponse st id).nextRequestId = st.nextRequestId := by
        unfold handleResponse
        match id with
        | .other => rfl
        | .num i => dsimp only; split <;> rfl
      rw [this]
      exact hlt j hj'
    | .timeout id method =>
      simp only [clientRunFrom, clientStep]
      refine ih _ _ (by simpa using hchain) ?_
      intro j hj
      have hj' : j ∈ acc := by simpa using hj
      exact hlt j hj'
    | .procClosed =>
      simp only [clientRunFrom, clientStep]
      refine ih _ _ (by simpa using hchain) ?_
      intro j hj
      have hj' : j ∈ acc := by simpa using hj
      have : (handleProcessClosed st).nextRequestId = st.nextRequestId := by
        unfold handleProcessClosed
        split <;> rfl
      rw [this]
      exact hlt j hj'

/-- C4: within one client's lifetime every assigned request id is strictly
greater than all ids assigned before it (hence no id is ever reused), and
handling a response whose id is non-numeric or has no pending entry leaves
the client state unchanged. -/
theorem C4_request_ids_and_unknown_response :
    (∀ (language : String) (ops : List ClientOp),
        (assignedIds language ops).Chain' (· < ·) ∧
        (assignedIds language ops).Pairwise (· ≠ ·)) ∧
    (∀ (st : ClientState) (i : Int), i ∉ st.pending →
        handleResponse st (.num i) = st) ∧
    (∀ (st : ClientState), handleResponse st .other = st) := by
  refine ⟨?_, ?_, ?_⟩
  · intro language ops
    have hchain : (assignedIds language ops).Chain' (· < ·) :=
      clientRunFrom_chain ops (initClient language) [] (by simp) (by simp)
    refine ⟨hchain, ?_⟩
    exact (List.chain'_iff_pairwise.mp hchain).imp ne_of_lt
  · intro st i hmem
    simp [handleResponse, hmem]
  · intro st
    rfl

/-- Witness for C4: a concrete run assigns ids `[1, 2, 3]`, strictly
increasing, and a response with unknown id 7 leaves a fresh client
unchanged. -/
theorem C4_request_ids_and_unknown_response_witness :
    (assignedIds "typescript"
        [.send, .send, .response (.num 1), .send]).Chain' (· < ·) ∧
    handleResponse (initClient "typescript") (.num 7) = initClient "typescript" :=
  ⟨(C4_request_ids_and_unknown_response.1 "typescript"
      [.send, .send, .response (.num 1), .send]).1,
    C4_request_ids_and_unknown_response.2.1 (initClient "typescript") 7 (by simp [initClient])⟩

/-- C8: when a request's timeout fires while its entry is still pending, that
entry — and only that entry — is removed from the pending table, the caller's
promise is rejected with the message built from the client language and the
request method, and the client stays alive (its closed flag, language and id
counter are untouched). -/
theorem C8_timeout_removes_entry_and_rejects
    (st : ClientState) (id : Int) (method : String)
    (hpend : id ∈ st.pending) :
    id ∉ (fireTimeout st id method).1.pending ∧
    (∀ j : Int, j ≠ id →
      (j ∈ (fireTimeout st id method).1.pending ↔ j ∈ st.pending)) ∧
    (fireTimeout st id method).1.closed = st.closed ∧
    (fireTimeout st id method).1.language = st.language ∧
    (fireTimeout st id method).1.nextRequestId = st.nextRequestId ∧
    (fireTimeout st id method).2 =
      "[LSP:" ++ st.language ++ "] Request timeout for " ++ method := by
  refine ⟨?_, ?_, rfl, rfl, rfl, rfl⟩
  · simp [fireTimeout]
  · intro j hj
    simp [fireTimeout, hj]

/-- Witness for C8: firing the timeout of request 3 on a client with pending
requests 2 and 3 removes entry 3, keeps the client open, and rejects with the
exact timeout message. -/
theorem C8_timeout_removes_entry_and_rejects_witness :
    3 ∉ (fireTimeout ⟨"python", 4, [2, 3], false⟩ 3 "shutdown").1.pending ∧
    (fireTimeout ⟨"python", 4, [2, 3], false⟩ 3 "shutdown").1.closed = false ∧
    (fireTimeout ⟨"python", 4, [2, 3], false⟩ 3 "shutdown").2 =
      "[LSP:python] Request timeout for shutdown" := by
  obtain ⟨h1, _, h3, _, _, h6⟩ :=
    C8_timeout_removes_entry_and_rejects ⟨"python", 4, [2, 3], false⟩ 3 "shutdown"
      (by decide)
  exact ⟨h1, h3, by rw [h6]; rfl⟩

/-- Counterexample to C9 as stated: when a completion (or hover) request
times out, the caller of the client operation does not receive an empty
result — the awaited promise is rejected with the timeout error, which is
distinct from the `ok []` / `ok none` outcome of "no results". -/
theorem C9_counterexample :
    completionOutcome
        (sendRequestTimedOut (initClient "typescript") "textDocument/completion") =
      .err "[LSP:typescript] Request timeout for textDocument/completion" ∧
    completionOutcome
        (sendRequestTimedOut (initClient "typescript") "textDocument/completion") ≠
      .ok ([] : List CompletionItem) ∧
    hoverOutcome
        (sendRequestTimedOut (initClient "typescript") "textDocument/hover") ≠
      .ok (none : Option HoverInfo) := by
  refine ⟨rfl, ?_, ?_⟩ <;> decide

/-- C9 amended: a completion or hover timeout propagates to the caller as a
rejection carrying the timeout message (`completion`/`hover` do not catch it),
whereas a `null` response result normalizes to an empty completion list /
null hover — so a timeout is externally distinguishable from "no results". -/
theorem C9_timeout_rejects_with_error :
    (∀ (st : ClientState) (method : String),
      completionOutcome (sendRequestTimedOut st method) =
        .err (requestTimeoutMessage st.language method)) ∧
    (∀ (st : ClientState) (method : String),
      hoverOutcome (sendRequestTimedOut st method) =
        .err (requestTimeoutMessage st.language method)) ∧
    normalizeCompletionList Json.null = [] ∧
    normalizeHoverResult Json.null = none :=
  ⟨fun _ _ => rfl, fun _ _ => rfl, rfl, rfl⟩

/-- C10 (implicit): a diagnostic whose range and message validate is never
dropped because of its severity field: whether the field is absent or not one
of the integers 1–4, the diagnostic is kept and its severity normalizes to
`error`. -/
theorem C10_severity_fallback_keeps_diagnostic
    (fields : List (String × Json)) (r : DiagRange) (m : String)
    (hrange : normalizeRange (jget (.obj fields) "range") = some r)
    (hmsg : jget (.obj fields) "message" = some (.str m))
    (hm : m ≠ "")
    (hsev : ∀ n : Int, jget (.obj fields) "severity" = some (.num n) →
      n ≠ 1 ∧ n ≠ 2 ∧ n ≠ 3 ∧ n ≠ 4) :
    ∃ d : Diagnostic, normalizeDiagnostic (.obj fields) = some d ∧
      d.severity = .error ∧ d.message = m ∧ d.range = r := by
  have hsevE : normalizeSeverity (jget (.obj fields) "severity") = .error := by
    cases hs : jget (.obj fields) "severity" with
    | none => rfl
    | some v =>
      cases v with
      | num n =>
        obtain ⟨h1, h2, h3, h4⟩ := hsev n hs
        simp [normalizeSeverity, h1, h2, h3, h4]
      | null => rfl
      | bool b => rfl
      | str s => rfl
      | arr xs => rfl
      | obj fs => rfl
  simp only [normalizeDiagnostic, hrange, hmsg]
  rw [if_neg hm]
  exact ⟨_, rfl, hsevE, rfl, rfl⟩

/-- Witness for C10: a diagnostic with a valid range, message "boom" and the
out-of-range severity 7 is kept with severity `error`. -/
theorem C10_severity_fallback_keeps_diagnostic_witness :
    ∃ d : Diagnostic,
      normalizeDiagnostic
          (Json.obj
            [("range", Json.obj
                [("start", Json.obj [("line", Json.num 0), ("character", Json.num 1)]),
                 ("end", Json.obj [("line", Json.num 0), ("character", Json.num 2)])]),
             ("message", Json.str "boom"),
             ("severity", Json.num 7)]) = some d ∧
      d.severity = .error ∧ d.message = "boom" ∧
      d.range = ⟨⟨0, 1, 0⟩, ⟨0, 2, 0⟩⟩ := by
  refine C10_severity_fallback_keeps_diagnostic _ _ _ rfl rfl (by decide) ?_
  intro n hn
  injection (show some (Json.num 7) = some (Json.num n) from hn) with h1
  injection h1 with h2
  omega

/-- Actions the runtime dispatches to the application store (settings.ts /
domain types). -/
inductive AppAction where
  | setBufferDiagnostics (bufferId : String) (diagnostics : List Diagnostic)
  | clearBufferDiagnostics (bufferId : String)
  | clearAllDiagnostics
deriving DecidableEq, Repr

/-- The `uriToBufferIds` index of the runtime: each URI maps to the set of
buffer ids currently bound to it (modelled as an association list of
duplicate-free id lists). -/
def lookupUriBuffers (index : List (String × List String)) (uri : String) :
    Option (List String) :=
  (index.find? (fun p => p.1 == uri)).map (·.2)

/-- The diagnostics callback registered by `bindDiagnostics` (settings.ts):
for a notification carrying `uri`, dispatch `SET_BUFFER_DIAGNOSTICS` for
every buffer id mapped to that URI; if the URI is unmapped or its id set is
empty, dispatch nothing. -/
def diagnosticsCallbackActions (index : List (String × List String))
    (uri : String) (diagnostics : List Diagnostic) : List AppAction :=
  match lookupUriBuffers index uri with
  | none => []
  | some bufferIds =>
    if bufferIds.isEmpty then []
    else bufferIds.map (fun bufferId => .setBufferDiagnostics bufferId diagnostics)

/-- The full path of a `publishDiagnostics` notification through
`handlePublishDiagnostics` (clipboard.ts) into the runtime's bound callback
(settings.ts): normalize the params, then fan the normalized diagnostics out
to the buffers mapped to the notified URI. -/
def publishDiagnosticsActions (index : List (String × List String))
    (params : Json) : List AppAction :=
  match normalizePublishDiagnosticsParams params with
  | none => []
  | some (uri, diagnostics) => diagnosticsCallbackActions index uri diagnostics

/-- C6: for every `publishDiagnostics` notification carrying URI `U` that
validates to normalized diagnostics `ds`, a `SET_BUFFER_DIAGNOSTICS` action
carrying `ds` is dispatched exactly for the buffer ids mapped to `U` in the
`uriToBufferIds` index — and every dispatched action is such an action. -/
theorem C6_diagnostics_fanout (index : List (String × List String))
    (params : Json) (uri : String) (ds : List Diagnostic)
    (hnorm : normalizePublishDiagnosticsParams params = some (uri, ds)) :
    (∀ b : String,
      AppAction.setBufferDiagnostics b ds ∈ publishDiagnosticsActions index params ↔
        b ∈ (lookupUriBuffers index uri).getD []) ∧
    (∀ a ∈ publishDiagnosticsActions index params,
      ∃ b ∈ (lookupUriBuffers index uri).getD [], a = .setBufferDiagnostics b ds) := by
  have hred : publishDiagnosticsActions index params =
      diagnosticsCallbackActions index uri ds := by
    unfold publishDiagnosticsActions
    rw [hnorm]
  rw [hred]
  unfold diagnosticsCallbackActions
  cases hl : lookupUriBuffers index uri with
  | none => simp [hl]
  | some ids =>
    simp only [hl]
    by_cases hids : ids.isEmpty
    · simp only [if_pos hids]
      rw [List.isEmpty_iff] at hids
      subst hids
      simp
    · simp only [if_neg hids, Option.getD_some]
      constructor
      · intro b
        simp only [List.mem_map]
        constructor
        · rintro ⟨b', hb', heq⟩
          obtain ⟨rfl, -⟩ := AppAction.setBufferDiagnostics.inj heq.symm
          exact hb'
        · intro hb
          exact ⟨b, hb, rfl⟩
      · intro a ha
        simp only [List.mem_map] at ha
        obtain ⟨b, hb, rfl⟩ := ha
        exact ⟨b, hb, rfl⟩

/-- Witness for C6: with `file:///a.ts` mapped to buffers `b1`, `b2` and
`file:///b.ts` mapped to `b3`, a notification for `file:///a.ts` dispatches
to exactly `b1` and `b2` — in particular to `b1` and not to `b3`. -/
theorem C6_diagnostics_fanout_witness :
    (AppAction.setBufferDiagnostics "b1" [] ∈
      publishDiagnosticsActions [("file:///a.ts", ["b1", "b2"]), ("file:///b.ts", ["b3"])]
        (Json.obj [("uri", Json.str "file:///a.ts"), ("diagnostics", Json.arr [])])) ∧
    ¬(AppAction.setBufferDiagnostics "b3" [] ∈
      publishDiagnosticsActions [("file:///a.ts", ["b1", "b2"]), ("file:///b.ts", ["b3"])]
        (Json.obj [("uri", Json.str "file:///a.ts"), ("diagnostics", Json.arr [])])) := by
  obtain ⟨hiff, -⟩ :=
    C6_diagnostics_fanout [("file:///a.ts", ["b1", "b2"]), ("file:///b.ts", ["b3"])]
      (Json.obj [("uri", Json.str "file:///a.ts"), ("diagnostics", Json.arr [])])
      "file:///a.ts" [] rfl
  constructor
  · exact (hiff "b1").mpr (by decide)
  · intro hmem
    have := (hiff "b3").mp hmem
    revert this
    decide

/-- A notification handed by the runtime to the language client for one
document (the `client.didOpen/didChange/didClose/didSave` calls in
settings.ts).  Per client, wire order equals call order because all writes go
through the client's ordered write queue. -/
inductive Wire where
  | didOpen (version : Nat) (content : String)
  | didChange (version : Nat) (content : String)
  | didClose
  | didSave (content : String)
deriving DecidableEq, Repr

/-- A runtime task that is awaiting the document's in-flight open promise
(`await tracked.openPromise` in `sendDidChange`, `sendDidSave`, and
`closeDocument`'s close task, settings.ts). -/
inductive Waiter where
  | wChange
  | wSave
  | wClose
deriving DecidableEq, Repr

/-- External events affecting one tracked document generation (one
`openDocument` call and the state transitions that follow it, settings.ts).
`openResolve ok` is the settlement of the `ensureClient` promise (`ok`
iff it produced a live client; settlement with an already-closed client and
later client respawn are covered by the full model `RtEvent`/`runRtFull`
below); `edit` is a state transition whose buffer content
changed (refresh snapshot + `scheduleDidChange`); `save` is a dirty → clean
transition (`sendDidSave`); `removeBuffer` triggers `closeDocument`;
`serverExit` is the death or removal of the language's client
(`getClient` null / `isReady` false afterwards). -/
inductive RtInput where
  | openResolve (ok : Bool)
  | edit (newContent : String)
  | save
  | removeBuffer
  | serverExit
deriving DecidableEq, Repr

/-- Model of `DID_CHANGE_DEBOUNCE_MS` (settings.ts). -/
def DID_CHANGE_DEBOUNCE_MS : Nat := 200

/-- State of one tracked document generation plus the wire events emitted so
far.  `tracked` models membership in the `documents` map; `opened`,
`version`, `content` are the `TrackedDocument` fields; `openResolved` records
whether the open promise has settled; `timer` is the pending debounce
deadline from `changeTimers`; `clientReady` models
`lsp.getClient(lang) !== null && client.isReady`; `waiters` are the tasks
suspended on `await openPromise`, in FIFO resumption order. -/
structure RtState where
  tracked : Bool
  opened : Bool
  openResolved : Bool
  version : Nat
  content : String
  timer : Option Nat
  clientReady : Bool
  waiters : List Waiter
  events : List (Nat × Wire)
deriving DecidableEq, Repr

/-- The document right after `openDocument` ran synchronously (settings.ts):
in the map, version 1, not yet opened, open promise in flight. -/
def initRtState (content0 : String) : RtState :=
  { tracked := true, opened := false, openResolved := false,
    version := 1, content := content0, timer := none, clientReady := false,
    waiters := [], events := [] }

/-- Resume one task past its `await openPromise` point at time `t`
(settings.ts).  `wChange` is the tail of `sendDidChange`: re-fetch the
document, require `opened` and a ready client, then increment the version and
send didChange with the current snapshot.  `wSave` is the tail of
`sendDidSave` (same guards, no version bump).  `wClose` is `closeDocument`'s
close task: it uses the captured document's `opened` flag and requires a
ready client. -/
def runWaiter (st : RtState) (t : Nat) (w : Waiter) : RtState :=
  match w with
  | .wChange =>
    if st.tracked && st.opened && st.clientReady then
      { st with
        version := st.version + 1
        events := st.events ++ [(t, .didChange (st.version + 1) st.content)] }
    else st
  | .wSave =>
    if st.tracked && st.opened && st.clientReady then
      { st with events := st.events ++ [(t, .didSave st.content)] }
    else st
  | .wClose =>
    if st.opened && st.clientReady then
      { st with events := st.events ++ [(t, .didClose)] }
    else st

/-- The debounce timer callback (settings.ts `scheduleDidChange`): delete the
timer entry and start `sendDidChange`, whose task suspends on the open
promise — resuming immediately when it is already settled, or queueing
otherwise. -/
def fireTimer (st : RtState) (d : Nat) : RtState :=
  let st := { st with timer := none }
  if st.tracked then
    if st.openResolved then runWaiter st d .wChange
    else { st with waiters := st.waiters ++ [.wChange] }
  else st

/-- Settlement of the `ensureClient` promise at time `t` (the `.then`
continuation in `openDocument`, settings.ts) for the restricted model, where
a produced client is live: if a client was produced and the document is
still tracked, send didOpen with the current version and content snapshot
and mark it opened.  All tasks awaiting the open promise then resume in FIFO
order.  (`resolveOpenFull` below additionally models settlement with an
already-closed client, whose didOpen is dropped.) -/
def resolveOpen (st : RtState) (t : Nat) (ok : Bool) : RtState :=
  if st.openResolved then st
  else
    let st := { st with openResolved := true, clientReady := ok }
    let st :=
      if ok && st.tracked then
        { st with
          opened := true
          events := st.events ++ [(t, .didOpen st.version st.content)] }
      else st
    (st.waiters).foldl (fun s w => runWaiter s t w) { st with waiters := [] }

/-- Handle one external event at time `t` (settings.ts `syncBuffer` /
`closeDocument` / process exit). -/
def handleInput (st : RtState) (t : Nat) (i : RtInput) : RtState :=
  match i with
  | .openResolve ok => resolveOpen st t ok
  | .edit c =>
    -- syncBuffer: refresh the content snapshot, then scheduleDidChange
    -- (clear any pending timer and arm a fresh 200 ms one).
    if st.tracked then
      { st with content := c, timer := some (t + DID_CHANGE_DEBOUNCE_MS) }
    else st
  | .save =>
    -- sendDidSave: suspend on the open promise.
    if st.tracked then
      if st.openResolved then runWaiter st t .wSave
      else { st with waiters := st.waiters ++ [.wSave] }
    else st
  | .removeBuffer =>
    -- closeDocument: cancel the debounce timer, remove the document, and run
    -- the close task once the open promise has settled.
    let st := { st with timer := none }
    if st.tracked then
      let st := { st with tracked := false }
      if st.openResolved then runWaiter st t .wClose
      else { st with waiters := st.waiters ++ [.wClose] }
    else st
  | .serverExit => { st with clientReady := false }

/-- Process one timed external event: first fire a debounce timer that is due
at or before `t`, then handle the event. -/
def stepInput (st : RtState) (t : Nat) (i : RtInput) : RtState :=
  let st :=
    match st.timer with
    | some d => if d ≤ t then fireTimer st d else st
    | none => st
  handleInput st t i

/-- Fire a still-pending debounce timer after the last external event. -/
def finishTimers (st : RtState) : RtState :=
  match st.timer with
  | some d => fireTimer st d
  | none => st

/-- Run one document generation (without the trailing timer flush). -/
def runRtCore (content0 : String) (inputs : List (Nat × RtInput)) : RtState :=
  inputs.foldl (fun s ti => stepInput s ti.1 ti.2) (initRtState content0)

/-- Run one document generation to quiescence. -/
def runRt (content0 : String) (inputs : List (Nat × RtInput)) : RtState :=
  finishTimers (runRtCore content0 inputs)

/-- Does the event list contain a didOpen? -/
def containsDidOpen (events : List (Nat × Wire)) : Bool :=
  events.any (fun e =>
    match e.2 with
    | .didOpen _ _ => true
    | _ => false)

/-- Scan an event list with a flag recording whether a didOpen has been seen:
every didChange must come strictly after some didOpen. -/
def openPrecedesChangeFrom (seenOpen : Bool) : List (Nat × Wire) → Bool
  | [] => true
  | e :: rest =>
    match e.2 with
    | .didOpen _ _ => openPrecedesChangeFrom true rest
    | .didChange _ _ => seenOpen && openPrecedesChangeFrom seenOpen rest
    | _ => openPrecedesChangeFrom seenOpen rest

/-- Every didChange in the list is preceded by a didOpen. -/
def openPrecedesChange (events : List (Nat × Wire)) : Bool :=
  openPrecedesChangeFrom false events

theorem openPrecedesChangeFrom_mono {events : List (Nat × Wire)}
    (h : openPrecedesChangeFrom false events = true) :
    openPrecedesChangeFrom true events = true := by
  induction events with
  | nil => rfl
  | cons e rest ih =>
    rcases e with ⟨t, w⟩
    cases w with
    | didOpen v c => simpa [openPrecedesChangeFrom] using h
    | didChange v c => simp [openPrecedesChangeFrom] at h
    | didClose =>
      simp only [openPrecedesChangeFrom] at h ⊢
      exact ih h
    | didSave c =>
      simp only [openPrecedesChangeFrom] at h ⊢
      exact ih h

theorem openPrecedesChangeFrom_append (seenOpen : Bool) (l₁ l₂ : List (Nat × Wire)) :
    openPrecedesChangeFrom seenOpen (l₁ ++ l₂) =
      (openPrecedesChangeFrom seenOpen l₁ &&
        openPrecedesChangeFrom (seenOpen || containsDidOpen l₁) l₂) := by
  induction l₁ generalizing seenOpen with
  | nil => simp [openPrecedesChangeFrom, containsDidOpen]
  | cons e rest ih =>
    rcases e with ⟨t, w⟩
    cases w <;> cases seenOpen <;>
      simp [openPrecedesChangeFrom, containsDidOpen, ih, Bool.and_assoc]

theorem containsDidOpen_append (l₁ l₂ : List (Nat × Wire)) :
    containsDidOpen (l₁ ++ l₂) = (containsDidOpen l₁ || containsDidOpen l₂) := by
  simp [containsDidOpen]

theorem opc_append_open (l : List (Nat × Wire)) (t v : Nat) (c : String) :
    openPrecedesChange (l ++ [(t, .didOpen v c)]) = openPrecedesChange l := by
  unfold openPrecedesChange
  rw [openPrecedesChangeFrom_append]
  simp [openPrecedesChangeFrom]

theorem opc_append_change (l : List (Nat × Wire)) (t v : Nat) (c : String) :
    openPrecedesChange (l ++ [(t, .didChange v c)]) =
      (openPrecedesChange l && containsDidOpen l) := by
  unfold openPrecedesChange
  rw [openPrecedesChangeFrom_append]
  simp [openPrecedesChangeFrom]

theorem opc_append_close (l : List (Nat × Wire)) (t : Nat) :
    openPrecedesChange (l ++ [(t, .didClose)]) = openPrecedesChange l := by
  unfold openPrecedesChange
  rw [openPrecedesChangeFrom_append]
  simp [openPrecedesChangeFrom]

theorem opc_append_save (l : List (Nat × Wire)) (t : Nat) (c : String) :
    openPrecedesChange (l ++ [(t, .didSave c)]) = openPrecedesChange l := by
  unfold openPrecedesChange
  rw [openPrecedesChangeFrom_append]
  simp [openPrecedesChangeFrom]

/-- Ordering invariant of the runtime simulation: the emitted events never
place a didChange before a didOpen, and an opened document has emitted its
didOpen. -/
def RtInv (st : RtState) : Prop :=
  openPrecedesChange st.events = true ∧
  (st.opened = true → containsDidOpen st.events = true)

theorem runWaiter_inv {st : RtState} (t : Nat) (w : Waiter) (hinv : RtInv st) :
    RtInv (runWaiter st t w) := by
  obtain ⟨hopc, hopen⟩ := hinv
  cases w with
  | wChange =>
    simp only [runWaiter]
    by_cases hguard : (st.tracked && st.opened && st.clientReady) = true
    · rw [if_pos hguard]
      have hop : st.opened = true := by
        simp only [Bool.and_eq_true] at hguard
        exact hguard.1.2
      constructor
      · show openPrecedesChange (st.events ++ [(t, .didChange (st.version + 1) st.content)]) = true
        rw [opc_append_change, hopc, hopen hop]
        rfl
      · intro _
        show containsDidOpen (st.events ++ [(t, .didChange (st.version + 1) st.content)]) = true
        rw [containsDidOpen_append, hopen hop]
        rfl
    · rw [if_neg hguard]
      exact ⟨hopc, hopen⟩
  | wSave =>
    simp only [runWaiter]
    by_cases hguard : (st.tracked && st.opened && st.clientReady) = true
    · rw [if_pos hguard]
      have hop : st.opened = true := by
        simp only [Bool.and_eq_true] at hguard
        exact hguard.1.2
      constructor
      · show openPrecedesChange (st.events ++ [(t, .didSave st.content)]) = true
        rw [opc_append_save, hopc]
      · intro _
        show containsDidOpen (st.events ++ [(t, .didSave st.content)]) = true
        rw [containsDidOpen_append, hopen hop]
        rfl
    · rw [if_neg hguard]
      exact ⟨hopc, hopen⟩
  | wClose =>
    simp only [runWaiter]
    by_cases hguard : (st.opened && st.clientReady) = true
    · rw [if_pos hguard]
      have hop : st.opened = true := by
        simp only [Bool.and_eq_true] at hguard
        exact hguard.1
      constructor
      · show openPrecedesChange (st.events ++ [(t, .didClose)]) = true
        rw [opc_append_close, hopc]
      · intro _
        show containsDidOpen (st.events ++ [(t, .didClose)]) = true
        rw [containsDidOpen_append, hopen hop]
        rfl
    · rw [if_neg hguard]
      exact ⟨hopc, hopen⟩

theorem foldl_runWaiter_inv (ws : List Waiter) (t : Nat) :
    ∀ st : RtState, RtInv st →
      RtInv (ws.foldl (fun s w => runWaiter s t w) st) := by
  induction ws with
  | nil => intro st h; exact h
  | cons w rest ih =>
    intro st h
    exact ih _ (runWaiter_inv t w h)

theorem fireTimer_inv {st : RtState} (d : Nat) (hinv : RtInv st) :
    RtInv (fireTimer st d) := by
  obtain ⟨hopc, hopen⟩ := hinv
  unfold fireTimer
  by_cases ht : st.tracked
  · simp only [ht, if_true]
    by_cases hr : st.openResolved
    · simp only [hr, if_true]
      exact runWaiter_inv d .wChange ⟨hopc, hopen⟩
    · simp only [hr, if_false]
      exact ⟨hopc, hopen⟩
  · simp only [ht, if_false]
    exact ⟨hopc, hopen⟩

theorem finishTimers_inv {st : RtState} (hinv : RtInv st) :
    RtInv (finishTimers st) := by
  unfold finishTimers
  cases htm : st.timer with
  | none => exact hinv
  | some d => exact fireTimer_inv d hinv

/-- Count the events satisfying a predicate on the wire message. -/
def countWire (p : Wire → Bool) (events : List (Nat × Wire)) : Nat :=
  (events.filter (fun e => p e.2)).length

/-- Is the message a didChange? -/
def isDidChange : Wire → Bool
  | .didChange _ _ => true
  | _ => false

/-- Is the message a didClose? -/
def isDidClose : Wire → Bool
  | .didClose => true
  | _ => false

theorem countWire_append (p : Wire → Bool) (l₁ l₂ : List (Nat × Wire)) :
    countWire p (l₁ ++ l₂) = countWire p l₁ + countWire p l₂ := by
  simp [countWire, List.filter_append]

/-- Bookkeeping invariant of one document generation: the version counter
equals 1 plus the number of didChange notifications sent so far (it is
incremented exactly in the step that hands a didChange to the ready client),
and the opened flag is set exactly when the didOpen notification has been
sent. -/
def VerInv (st : RtState) : Prop :=
  st.version = 1 + countWire isDidChange st.events ∧
  st.opened = containsDidOpen st.events

theorem runWaiter_verinv {st : RtState} (t : Nat) (w : Waiter) (hinv : VerInv st) :
    VerInv (runWaiter st t w) := by
  obtain ⟨hver, hop⟩ := hinv
  cases w with
  | wChange =>
    simp only [runWaiter]
    by_cases hguard : (st.tracked && st.opened && st.clientReady) = true
    · rw [if_pos hguard]
      constructor
      · show st.version + 1 =
          1 + countWire isDidChange (st.events ++ [(t, .didChange (st.version + 1) st.content)])
        rw [countWire_append, hver]
        rfl
      · show st.opened =
          containsDidOpen (st.events ++ [(t, .didChange (st.version + 1) st.content)])
        rw [containsDidOpen_append, hop]
        simp [containsDidOpen]
    · rw [if_neg hguard]
      exact ⟨hver, hop⟩
  | wSave =>
    simp only [runWaiter]
    by_cases hguard : (st.tracked && st.opened && st.clientReady) = true
    · rw [if_pos hguard]
      constructor
      · show st.version = 1 + countWire isDidChange (st.events ++ [(t, .didSave st.content)])
        rw [countWire_append, hver]
        rfl
      · show st.opened = containsDidOpen (st.events ++ [(t, .didSave st.content)])
        rw [containsDidOpen_append, hop]
        simp [containsDidOpen]
    · rw [if_neg hguard]
      exact ⟨hver, hop⟩
  | wClose =>
    simp only [runWaiter]
    by_cases hguard : (st.opened && st.clientReady) = true
    · rw [if_pos hguard]
      constructor
      · show st.version = 1 + countWire isDidChange (st.events ++ [(t, .didClose)])
        rw [countWire_append, hver]
        rfl
      · show st.opened = containsDidOpen (st.events ++ [(t, .didClose)])
        rw [containsDidOpen_append, hop]
        simp [containsDidOpen]
    · rw [if_neg hguard]
      exact ⟨hver, hop⟩

theorem foldl_runWaiter_verinv (ws : List Waiter) (t : Nat) :
    ∀ st : RtState, VerInv st →
      VerInv (ws.foldl (fun s w => runWaiter s t w) st) := by
  induction ws with
  | nil => intro st h; exact h
  | cons w rest ih =>
    intro st h
    exact ih _ (runWaiter_verinv t w h)

theorem fireTimer_verinv {st : RtState} (d : Nat) (hinv : VerInv st) :
    VerInv (fireTimer st d) := by
  obtain ⟨hver, hop⟩ := hinv
  unfold fireTimer
  by_cases ht : st.tracked
  · simp only [ht, if_true]
    by_cases hr : st.openResolved
    · simp only [hr, if_true]
      exact runWaiter_verinv d .wChange ⟨hver, hop⟩
    · simp only [hr, if_false]
      exact ⟨hver, hop⟩
  · simp only [ht, if_false]
    exact ⟨hver, hop⟩

theorem runWaiter_version_mono (st : RtState) (t : Nat) (w : Waiter) :
    st.version ≤ (runWaiter st t w).version := by
  cases w <;> simp only [runWaiter] <;> split <;> simp

theorem foldl_runWaiter_version_mono (ws : List Waiter) (t : Nat) :
    ∀ st : RtState, st.version ≤ (ws.foldl (fun s w => runWaiter s t w) st).version := by
  induction ws with
  | nil => intro st; exact le_refl _
  | cons w rest ih =>
    intro st
    exact le_trans (runWaiter_version_mono st t w) (ih _)

theorem fireTimer_version_mono (st : RtState) (d : Nat) :
    st.version ≤ (fireTimer st d).version := by
  unfold fireTimer
  dsimp only
  split
  · split
    · exact runWaiter_version_mono { st with timer := none } d .wChange
    · exact le_refl _
  · exact le_refl _

/-- C3: a document whose open has completed (with a ready client), then
edited three times within a 100 ms span, sends exactly one didChange: it is
emitted at the 200 ms debounce deadline of the last edit — each edit inside
the window cancels and reschedules the pending timer — and carries the final
content with version 2 = previous version 1 + 1. -/
theorem C3_three_edits_one_debounced_didChange
    (t0 t1 t2 t3 : Nat) (c0 c1 c2 c3 : String)
    (_h01 : t0 ≤ t1) (h12 : t1 ≤ t2) (h23 : t2 ≤ t3) (hspan : t3 ≤ t1 + 100) :
    (runRt c0
        [(t0, .openResolve true), (t1, .edit c1), (t2, .edit c2), (t3, .edit c3)]).events
      = [(t0, .didOpen 1 c0), (t3 + 200, .didChange 2 c3)] := by
  have hn1 : ¬(t1 + 200 ≤ t2) := by omega
  have hn2 : ¬(t2 + 200 ≤ t3) := by omega
  simp [runRt, runRtCore, stepInput, handleInput, resolveOpen, runWaiter, fireTimer,
    finishTimers, initRtState, DID_CHANGE_DEBOUNCE_MS, hn1, hn2]

/-- Witness for C3: open resolved at 0, edits at 10, 50 and 100 ms; the only
didChange fires at 300 ms with the last content and version 2. -/
theorem C3_three_edits_one_debounced_didChange_witness :
    (runRt "v0"
        [(0, .openResolve true), (10, .edit "a"), (50, .edit "b"), (100, .edit "c")]).events
      = [(0, .didOpen 1 "v0"), (300, .didChange 2 "c")] :=
  C3_three_edits_one_debounced_didChange 0 10 50 100 "v0" "a" "b" "c"
    (by omega) (by omega) (by omega) (by omega)

/-- Counterexample to C5 as stated: a document that reached `opened = true`
whose language client then died (process exit makes `getClient` null /
`isReady` false) yields zero didClose when its buffer is removed — the close
task's client guard skips the notification even though the document had been
opened. -/
theorem C5_counterexample :
    (runRt "a" [(0, .openResolve true), (1, .serverExit), (2, .removeBuffer)]).opened
        = true ∧
    (runRt "a" [(0, .openResolve true), (1, .serverExit), (2, .removeBuffer)]).tracked
        = false ∧
    countWire isDidClose
        (runRt "a" [(0, .openResolve true), (1, .serverExit), (2, .removeBuffer)]).events
      = 0 := by
  refine ⟨rfl, rfl, rfl⟩

theorem runWaiter_fields (st : RtState) (t : Nat) (w : Waiter) :
    (runWaiter st t w).opened = st.opened ∧
    (runWaiter st t w).tracked = st.tracked ∧
    (runWaiter st t w).waiters = st.waiters ∧
    (runWaiter st t w).openResolved = st.openResolved ∧
    (runWaiter st t w).clientReady = st.clientReady ∧
    (runWaiter st t w).timer = st.timer := by
  cases w <;> simp only [runWaiter] <;> split <;> simp

/-- A didChange or didSave or didOpen event does not change the didClose
count; a didClose event adds one. -/
theorem countClose_append_nonclose (l : List (Nat × Wire)) (t : Nat) (w : Wire)
    (hw : isDidClose w = false) :
    countWire isDidClose (l ++ [(t, w)]) = countWire isDidClose l := by
  rw [countWire_append]
  simp [countWire, List.filter, hw]

theorem countClose_append_close (l : List (Nat × Wire)) (t : Nat) :
    countWire isDidClose (l ++ [(t, .didClose)]) = countWire isDidClose l + 1 := by
  rw [countWire_append]
  rfl

/-- Close-count invariant that holds along every schedule: at most one
didClose is ever sent, a didClose implies the document had been opened, no
didClose is sent while the document is still tracked, an opened document has
a settled open promise, and a queued close task can only belong to a removed,
never-opened document. -/
def CloseCore (st : RtState) : Prop :=
  countWire isDidClose st.events ≤ 1 ∧
  (1 ≤ countWire isDidClose st.events → st.opened = true) ∧
  (st.tracked = true → countWire isDidClose st.events = 0) ∧
  (st.opened = true → st.openResolved = true) ∧
  (Waiter.wClose ∈ st.waiters → st.tracked = false) ∧
  (Waiter.wClose ∈ st.waiters → st.opened = false)

theorem runWaiter_closecore {st : RtState} (t : Nat) (w : Waiter)
    (hinv : CloseCore st)
    (hw : w = Waiter.wClose →
      (st.tracked = false ∧ countWire isDidClose st.events = 0) ∨ st.opened = false) :
    CloseCore (runWaiter st t w) := by
  obtain ⟨h1, h2, h3, h5, h7, h8⟩ := hinv
  cases w with
  | wChange =>
    simp only [runWaiter]
    split
    · have hc : countWire isDidClose
          (st.events ++ [(t, Wire.didChange (st.version + 1) st.content)]) =
          countWire isDidClose st.events := countClose_append_nonclose _ _ _ rfl
      exact ⟨by rw [hc] at *; exact h1, by rw [hc] at *; exact h2,
        fun ht => by rw [hc] at *; exact h3 ht, h5, h7, h8⟩
    · exact ⟨h1, h2, h3, h5, h7, h8⟩
  | wSave =>
    simp only [runWaiter]
    split
    · have hc : countWire isDidClose (st.events ++ [(t, Wire.didSave st.content)]) =
          countWire isDidClose st.events := countClose_append_nonclose _ _ _ rfl
      exact ⟨by rw [hc] at *; exact h1, by rw [hc] at *; exact h2,
        fun ht => by rw [hc] at *; exact h3 ht, h5, h7, h8⟩
    · exact ⟨h1, h2, h3, h5, h7, h8⟩
  | wClose =>
    simp only [runWaiter]
    split
    · next hguard =>
      simp only [Bool.and_eq_true] at hguard
      rcases hw rfl with ⟨htr, hcnt⟩ | hop
      · have hc : countWire isDidClose (st.events ++ [(t, Wire.didClose)]) =
            countWire isDidClose st.events + 1 := countClose_append_close _ t
        refine ⟨?_, ?_, ?_, h5, h7, h8⟩
        · show countWire isDidClose (st.events ++ [(t, Wire.didClose)]) ≤ 1
          rw [hc, hcnt]
        · intro _
          exact hguard.1
        · intro htr'
          rw [htr] at htr'
          cases htr'
      · rw [hop] at hguard
        cases hguard.1
    · exact ⟨h1, h2, h3, h5, h7, h8⟩

theorem foldl_runWaiter_closecore (ws : List Waiter) (t : Nat) :
    ∀ st : RtState, CloseCore st →
      (Waiter.wClose ∈ ws → st.opened = false) →
      CloseCore (ws.foldl (fun s w => runWaiter s t w) st) := by
  induction ws with
  | nil => intro st h _; exact h
  | cons w rest ih =>
    intro st h hcl
    have hst' : CloseCore (runWaiter st t w) :=
      runWaiter_closecore t w h
        (fun hw => Or.inr (hcl (by rw [hw]; exact List.mem_cons_self _ _)))
    refine ih _ hst' ?_
    intro hrest
    rw [(runWaiter_fields st t w).1]
    exact hcl (List.mem_cons_of_mem _ hrest)

theorem fireTimer_closecore {st : RtState} (d : Nat) (hinv : CloseCore st) :
    CloseCore (fireTimer st d) := by
  obtain ⟨h1, h2, h3, h5, h7, h8⟩ := hinv
  have hbase : CloseCore { st with timer := none } := ⟨h1, h2, h3, h5, h7, h8⟩
  unfold fireTimer
  dsimp only
  split
  · split
    · exact runWaiter_closecore d .wChange hbase (fun h => nomatch h)
    · obtain ⟨g1, g2, g3, g5, g7, g8⟩ := hbase
      refine ⟨g1, g2, g3, g5, ?_, ?_⟩
      · intro hmem
        simp only [List.mem_append, List.mem_singleton] at hmem
        rcases hmem with hmem | hmem
        · exact g7 hmem
        · cases hmem
      · intro hmem
        simp only [List.mem_append, List.mem_singleton] at hmem
        rcases hmem with hmem | hmem
        · exact g8 hmem
        · cases hmem
  · exact hbase

theorem resolveOpen_closecore {st : RtState} (t : Nat) (ok : Bool)
    (hinv : CloseCore st) :
    CloseCore (resolveOpen st t ok) := by
  obtain ⟨h1, h2, h3, h5, h7, h8⟩ := hinv
  unfold resolveOpen
  dsimp only
  split
  · exact ⟨h1, h2, h3, h5, h7, h8⟩
  · split
    · next hok =>
      have htr : st.tracked = true := by
        simp only [Bool.and_eq_true] at hok
        exact hok.2
      have hnomem : Waiter.wClose ∉ st.waiters := fun hmem => by
        rw [h7 hmem] at htr
        cases htr
      have hc : countWire isDidClose
          (st.events ++ [(t, Wire.didOpen st.version st.content)]) =
          countWire isDidClose st.events := countClose_append_nonclose _ _ _ rfl
      refine foldl_runWaiter_closecore _ t _ ?_ ?_
      · refine ⟨?_, fun _ => rfl, ?_, fun _ => rfl, ?_, ?_⟩
        · show countWire isDidClose
            (st.events ++ [(t, Wire.didOpen st.version st.content)]) ≤ 1
          rw [hc]
          exact h1
        · intro _
          show countWire isDidClose
            (st.events ++ [(t, Wire.didOpen st.version st.content)]) = 0
          rw [hc]
          exact h3 htr
        · intro hmem
          exact (List.not_mem_nil _ hmem).elim
        · intro hmem
          exact (List.not_mem_nil _ hmem).elim
      · intro hmem
        exact absurd hmem hnomem
    · refine foldl_runWaiter_closecore _ t _ ?_ ?_
      · refine ⟨h1, h2, h3, fun _ => rfl, ?_, ?_⟩
        · intro hmem
          exact (List.not_mem_nil _ hmem).elim
        · intro hmem
          exact (List.not_mem_nil _ hmem).elim
      · intro hmem
        exact h8 hmem

theorem handleInput_closecore {st : RtState} (t : Nat) (i : RtInput)
    (hinv : CloseCore st) :
    CloseCore (handleInput st t i) := by
  obtain ⟨h1, h2, h3, h5, h7, h8⟩ := hinv
  cases i with
  | openResolve ok => exact resolveOpen_closecore t ok ⟨h1, h2, h3, h5, h7, h8⟩
  | edit c =>
    simp only [handleInput]
    split
    · exact ⟨h1, h2, h3, h5, h7, h8⟩
    · exact ⟨h1, h2, h3, h5, h7, h8⟩
  | save =>
    simp only [handleInput]
    split
    · split
      · exact runWaiter_closecore t .wSave ⟨h1, h2, h3, h5, h7, h8⟩ (fun h => nomatch h)
      · refine ⟨h1, h2, h3, h5, ?_, ?_⟩
        · intro hmem
          simp only [List.mem_append, List.mem_singleton] at hmem
          rcases hmem with hmem | hmem
          · exact h7 hmem
          · cases hmem
        · intro hmem
          simp only [List.mem_append, List.mem_singleton] at hmem
          rcases hmem with hmem | hmem
          · exact h8 hmem
          · cases hmem
    · exact ⟨h1, h2, h3, h5, h7, h8⟩
  | removeBuffer =>
    simp only [handleInput]
    split
    · next ht =>
      split
      · refine runWaiter_closecore t .wClose ⟨h1, h2, ?_, h5, ?_, h8⟩ ?_
        · intro h
          cases h
        · intro _
          rfl
        · intro _
          exact Or.inl ⟨rfl, h3 ht⟩
      · next hr =>
        have hop : st.opened = false := by
          cases hopq : st.opened with
          | true => exact absurd (h5 hopq) hr
          | false => rfl
        refine ⟨h1, h2, ?_, h5, ?_, ?_⟩
        · intro h
          cases h
        · intro _
          rfl
        intro hmem
        simp only [List.mem_append, List.mem_singleton] at hmem
        rcases hmem with hmem | hmem
        · exact h8 hmem
        · exact hop
    · exact ⟨h1, h2, h3, h5, h7, h8⟩
  | serverExit => exact ⟨h1, h2, h3, h5, h7, h8⟩

theorem stepInput_closecore {st : RtState} (t : Nat) (i : RtInput)
    (hinv : CloseCore st) :
    CloseCore (stepInput st t i) := by
  unfold stepInput
  apply handleInput_closecore
  cases htm : st.timer with
  | none => simpa [htm] using hinv
  | some d =>
    simp only [htm]
    split
    · exact fireTimer_closecore d hinv
    · exact hinv

theorem foldl_stepInput_closecore (inputs : List (Nat × RtInput)) :
    ∀ st : RtState, CloseCore st →
      CloseCore (inputs.foldl (fun s ti => stepInput s ti.1 ti.2) st) := by
  induction inputs with
  | nil => intro st h; exact h
  | cons ti rest ih =>
    intro st h
    exact ih _ (stepInput_closecore ti.1 ti.2 h)

theorem initRtState_closecore (content0 : String) :
    CloseCore (initRtState content0) := by
  unfold CloseCore initRtState
  refine ⟨?_, ?_, ?_, ?_, ?_, ?_⟩ <;> simp [countWire]

theorem runRt_closecore (content0 : String) (inputs : List (Nat × RtInput)) :
    CloseCore (runRt content0 inputs) := by
  unfold runRt runRtCore
  have hstep := foldl_stepInput_closecore inputs (initRtState content0)
    (initRtState_closecore content0)
  unfold finishTimers
  cases htm : (inputs.foldl (fun s ti => stepInput s ti.1 ti.2) (initRtState content0)).timer with
  | none => exact hstep
  | some d => exact fireTimer_closecore d hstep

/-- Close-count invariant for schedules in which the language client never
dies: additionally, an opened document has a ready client, and an opened
document that has been removed has sent exactly one didClose. -/
def CloseFull (st : RtState) : Prop :=
  CloseCore st ∧
  (st.opened = true → st.clientReady = true) ∧
  (st.opened = true → st.tracked = false → countWire isDidClose st.events = 1)

theorem runWaiter_closefull {st : RtState} (t : Nat) (w : Waiter)
    (hinv : CloseFull st)
    (hw : w = Waiter.wClose → st.opened = false) :
    CloseFull (runWaiter st t w) := by
  obtain ⟨hcore, h4, h6⟩ := hinv
  cases w with
  | wChange =>
    refine ⟨runWaiter_closecore t .wChange hcore (fun h => nomatch h), ?_, ?_⟩
    · simp only [runWaiter]
      split
      · exact h4
      · exact h4
    · simp only [runWaiter]
      split
      · intro hop htr
        show countWire isDidClose
          (st.events ++ [(t, Wire.didChange (st.version + 1) st.content)]) = 1
        rw [countClose_append_nonclose st.events t
          (Wire.didChange (st.version + 1) st.content) rfl]
        exact h6 hop htr
      · exact h6
  | wSave =>
    refine ⟨runWaiter_closecore t .wSave hcore (fun h => nomatch h), ?_, ?_⟩
    · simp only [runWaiter]
      split
      · exact h4
      · exact h4
    · simp only [runWaiter]
      split
      · intro hop htr
        show countWire isDidClose (st.events ++ [(t, Wire.didSave st.content)]) = 1
        rw [countClose_append_nonclose st.events t (Wire.didSave st.content) rfl]
        exact h6 hop htr
      · exact h6
  | wClose =>
    have hst : runWaiter st t .wClose = st := by
      simp [runWaiter, hw rfl]
    rw [hst]
    exact ⟨hcore, h4, h6⟩

theorem foldl_runWaiter_closefull (ws : List Waiter) (t : Nat) :
    ∀ st : RtState, CloseFull st →
      (Waiter.wClose ∈ ws → st.opened = false) →
      CloseFull (ws.foldl (fun s w => runWaiter s t w) st) := by
  induction ws with
  | nil => intro st h _; exact h
  | cons w rest ih =>
    intro st h hcl
    have hst' : CloseFull (runWaiter st t w) :=
      runWaiter_closefull t w h
        (fun hw => hcl (by rw [hw]; exact List.mem_cons_self _ _))
    refine ih _ hst' ?_
    intro hrest
    rw [(runWaiter_fields st t w).1]
    exact hcl (List.mem_cons_of_mem _ hrest)

theorem fireTimer_closefull {st : RtState} (d : Nat) (hinv : CloseFull st) :
    CloseFull (fireTimer st d) := by
  obtain ⟨⟨h1, h2, h3, h5, h7, h8⟩, h4, h6⟩ := hinv
  have hbase : CloseFull { st with timer := none } :=
    ⟨⟨h1, h2, h3, h5, h7, h8⟩, h4, h6⟩
  unfold fireTimer
  dsimp only
  split
  · split
    · exact runWaiter_closefull d .wChange hbase (fun h => nomatch h)
    · obtain ⟨⟨g1, g2, g3, g5, g7, g8⟩, g4, g6⟩ := hbase
      refine ⟨⟨g1, g2, g3, g5, ?_, ?_⟩, g4, g6⟩
      · intro hmem
        simp only [List.mem_append, List.mem_singleton] at hmem
        rcases hmem with hmem | hmem
        · exact g7 hmem
        · cases hmem
      · intro hmem
        simp only [List.mem_append, List.mem_singleton] at hmem
        rcases hmem with hmem | hmem
        · exact g8 hmem
        · cases hmem
  · exact hbase

theorem resolveOpen_closefull {st : RtState} (t : Nat) (ok : Bool)
    (hinv : CloseFull st) :
    CloseFull (resolveOpen st t ok) := by
  obtain ⟨⟨h1, h2, h3, h5, h7, h8⟩, h4, h6⟩ := hinv
  unfold resolveOpen
  dsimp only
  split
  · exact ⟨⟨h1, h2, h3, h5, h7, h8⟩, h4, h6⟩
  · next hr =>
    split
    · next hok =>
      simp only [Bool.and_eq_true] at hok
      have htr : st.tracked = true := hok.2
      have hnomem : Waiter.wClose ∉ st.waiters := fun hmem => by
        rw [h7 hmem] at htr
        cases htr
      have hc : countWire isDidClose
          (st.events ++ [(t, Wire.didOpen st.version st.content)]) =
          countWire isDidClose st.events :=
        countClose_append_nonclose st.events t (Wire.didOpen st.version st.content) rfl
      refine foldl_runWaiter_closefull _ t _ ⟨⟨?_, fun _ => rfl, ?_, fun _ => rfl, ?_, ?_⟩,
        ?_, ?_⟩ ?_
      · show countWire isDidClose
          (st.events ++ [(t, Wire.didOpen st.version st.content)]) ≤ 1
        rw [hc]
        exact h1
      · intro _
        show countWire isDidClose
          (st.events ++ [(t, Wire.didOpen st.version st.content)]) = 0
        rw [hc]
        exact h3 htr
      · intro hmem
        exact (List.not_mem_nil _ hmem).elim
      · intro hmem
        exact (List.not_mem_nil _ hmem).elim
      · intro _
        exact hok.1
      · intro _ htr'
        rw [htr] at htr'
        cases htr'
      · intro hmem
        exact absurd hmem hnomem
    · have hop : st.opened = false := by
        cases hopq : st.opened with
        | true => exact absurd (h5 hopq) hr
        | false => rfl
      refine foldl_runWaiter_closefull _ t _ ⟨⟨h1, h2, h3, fun _ => rfl, ?_, ?_⟩,
        ?_, ?_⟩ ?_
      · intro hmem
        exact (List.not_mem_nil _ hmem).elim
      · intro hmem
        exact (List.not_mem_nil _ hmem).elim
      · intro hop'
        rw [hop] at hop'
        cases hop'
      · intro hop'
        rw [hop] at hop'
        cases hop'
      · intro _
        exact hop

theorem handleInput_closefull {st : RtState} (t : Nat) (i : RtInput)
    (hne : i ≠ RtInput.serverExit)
    (hinv : CloseFull st) :
    CloseFull (handleInput st t i) := by
  obtain ⟨⟨h1, h2, h3, h5, h7, h8⟩, h4, h6⟩ := hinv
  cases i with
  | openResolve ok => exact resolveOpen_closefull t ok ⟨⟨h1, h2, h3, h5, h7, h8⟩, h4, h6⟩
  | edit c =>
    simp only [handleInput]
    split
    · exact ⟨⟨h1, h2, h3, h5, h7, h8⟩, h4, h6⟩
    · exact ⟨⟨h1, h2, h3, h5, h7, h8⟩, h4, h6⟩
  | save =>
    simp only [handleInput]
    split
    · split
      · exact runWaiter_closefull t .wSave ⟨⟨h1, h2, h3, h5, h7, h8⟩, h4, h6⟩
          (fun h => nomatch h)
      · refine ⟨⟨h1, h2, h3, h5, ?_, ?_⟩, h4, h6⟩
        · intro hmem
          simp only [List.mem_append, List.mem_singleton] at hmem
          rcases hmem with hmem | hmem
          · exact h7 hmem
          · cases hmem
        · intro hmem
          simp only [List.mem_append, List.mem_singleton] at hmem
          rcases hmem with hmem | hmem
          · exact h8 hmem
          · cases hmem
    · exact ⟨⟨h1, h2, h3, h5, h7, h8⟩, h4, h6⟩
  | removeBuffer =>
    simp only [handleInput]
    split
    · next ht =>
      split
      · -- close task runs now, on the document removed from the map
        cases hopq : st.opened with
        | true =>
          have hcr : st.clientReady = true := h4 hopq
          simp only [runWaiter, hopq, hcr, Bool.and_self, if_pos]
          have hc := countClose_append_close st.events t
          refine ⟨⟨?_, ?_, ?_, ?_, ?_, ?_⟩, ?_, ?_⟩
          · show countWire isDidClose (st.events ++ [(t, Wire.didClose)]) ≤ 1
            rw [hc, h3 ht]
          · intro _
            rfl
          · intro hcontra
            cases hcontra
          · intro _
            exact h5 hopq
          · intro hmem
            rfl
          · intro hmem
            simp [h8 hmem] at hopq
          · intro _
            rfl
          · intro _ _
            show countWire isDidClose (st.events ++ [(t, Wire.didClose)]) = 1
            rw [hc, h3 ht]
        | false =>
          simp only [runWaiter, hopq, Bool.false_and, Bool.false_eq_true, if_false]
          refine ⟨⟨?_, ?_, ?_, ?_, ?_, ?_⟩, ?_, ?_⟩
          · exact h1
          · intro hcnt
            have hx := h2 hcnt
            rw [hopq] at hx
            exact hx
          · intro hcontra
            cases hcontra
          · intro hop'
            cases hop'
          · intro _
            rfl
          · intro _
            rfl
          · intro hop'
            cases hop'
          · intro hop'
            cases hop'
      · next hr =>
          have hop : st.opened = false := by
            cases hopq : st.opened with
            | true => exact absurd (h5 hopq) hr
            | false => rfl
          refine ⟨⟨h1, h2, ?_, h5, ?_, ?_⟩, ?_, ?_⟩
          · intro hcontra
            cases hcontra
          · intro _
            rfl
          · intro hmem
            simp only [List.mem_append, List.mem_singleton] at hmem
            rcases hmem with hmem | hmem
            · exact h8 hmem
            · exact hop
          · intro hop'
            rw [hop] at hop'
            cases hop'
          · intro hop'
            rw [hop] at hop'
            cases hop'
    · exact ⟨⟨h1, h2, h3, h5, h7, h8⟩, h4, h6⟩
  | serverExit => exact absurd rfl hne

theorem stepInput_closefull {st : RtState} (t : Nat) (i : RtInput)
    (hne : i ≠ RtInput.serverExit)
    (hinv : CloseFull st) :
    CloseFull (stepInput st t i) := by
  unfold stepInput
  apply handleInput_closefull t i hne
  cases htm : st.timer with
  | none => simpa [htm] using hinv
  | some d =>
    simp only [htm]
    split
    · exact fireTimer_closefull d hinv
    · exact hinv

theorem foldl_stepInput_closefull (inputs : List (Nat × RtInput)) :
    ∀ st : RtState,
      (∀ p ∈ inputs, Prod.snd p ≠ RtInput.serverExit) →
      CloseFull st →
      CloseFull (inputs.foldl (fun s ti => stepInput s ti.1 ti.2) st) := by
  induction inputs with
  | nil => intro st _ h; exact h
  | cons ti rest ih =>
    intro st hne h
    refine ih _ (fun p hp => hne p (List.mem_cons_of_mem _ hp)) ?_
    exact stepInput_closefull ti.1 ti.2 (hne ti (List.mem_cons_self _ _)) h

theorem initRtState_closefull (content0 : String) :
    CloseFull (initRtState content0) := by
  refine ⟨initRtState_closecore content0, ?_, ?_⟩
  · intro h
    cases h
  · intro h
    cases h

theorem runRt_closefull (content0 : String) (inputs : List (Nat × RtInput))
    (hne : ∀ p ∈ inputs, Prod.snd p ≠ RtInput.serverExit) :
    CloseFull (runRt content0 inputs) := by
  unfold runRt runRtCore
  have hstep := foldl_stepInput_closefull inputs (initRtState content0) hne
    (initRtState_closefull content0)
  unfold finishTimers
  cases htm : (inputs.foldl (fun s ti => stepInput s ti.1 ti.2) (initRtState content0)).timer with
  | none => exact hstep
  | some d => exact fireTimer_closefull d hstep

theorem foldl_runWaiter_tracked (ws : List Waiter) (t : Nat) :
    ∀ st : RtState, (ws.foldl (fun s w => runWaiter s t w) st).tracked = st.tracked := by
  induction ws with
  | nil => intro st; rfl
  | cons w rest ih =>
    intro st
    rw [List.foldl_cons, ih, (runWaiter_fields st t w).2.1]

theorem resolveOpen_tracked (st : RtState) (t : Nat) (ok : Bool) :
    (resolveOpen st t ok).tracked = st.tracked := by
  unfold resolveOpen
  dsimp only
  split
  · rfl
  · split
    · rw [foldl_runWaiter_tracked]
    · rw [foldl_runWaiter_tracked]

theorem fireTimer_tracked (st : RtState) (d : Nat) :
    (fireTimer st d).tracked = st.tracked := by
  unfold fireTimer
  dsimp only
  split
  · split
    · rw [(runWaiter_fields _ d .wChange).2.1]
    · rfl
  · rfl

theorem handleInput_removeBuffer_tracked (st : RtState) (t : Nat) :
    (handleInput st t .removeBuffer).tracked = false := by
  simp only [handleInput]
  split
  · split
    · rw [(runWaiter_fields _ t .wClose).2.1]
    · rfl
  · next htr =>
    cases hb : st.tracked with
    | false => rfl
    | true => exact absurd hb htr

theorem handleInput_tracked_false {st : RtState} (t : Nat) (i : RtInput)
    (ht : st.tracked = false) :
    (handleInput st t i).tracked = false := by
  cases i with
  | openResolve ok =>
    show (resolveOpen st t ok).tracked = false
    rw [resolveOpen_tracked]
    exact ht
  | edit c =>
    simp only [handleInput]
    split
    · exact ht
    · exact ht
  | save =>
    simp only [handleInput]
    split
    · next htr =>
      rw [ht] at htr
      cases htr
    · exact ht
  | removeBuffer => exact handleInput_removeBuffer_tracked st t
  | serverExit => exact ht

theorem stepInput_tracked_false {st : RtState} (t : Nat) (i : RtInput)
    (ht : st.tracked = false) :
    (stepInput st t i).tracked = false := by
  unfold stepInput
  apply handleInput_tracked_false
  cases htm : st.timer with
  | none => simpa [htm] using ht
  | some d =>
    simp only [htm]
    split
    · rw [fireTimer_tracked]
      exact ht
    · exact ht

theorem stepInput_removeBuffer_tracked (st : RtState) (t : Nat) :
    (stepInput st t .removeBuffer).tracked = false := by
  unfold stepInput
  exact handleInput_removeBuffer_tracked _ t

theorem foldl_stepInput_tracked_false (inputs : List (Nat × RtInput)) :
    ∀ st : RtState, st.tracked = false →
      (inputs.foldl (fun s ti => stepInput s ti.1 ti.2) st).tracked = false := by
  induction inputs with
  | nil => intro st h; exact h
  | cons ti rest ih =>
    intro st h
    exact ih _ (stepInput_tracked_false ti.1 ti.2 h)

theorem finishTimers_tracked (st : RtState) : (finishTimers st).tracked = st.tracked := by
  unfold finishTimers
  split
  · rw [fireTimer_tracked]
  · rfl

theorem runRt_removeBuffer_tracked (content0 : String) (inputs : List (Nat × RtInput))
    (hmem : RtInput.removeBuffer ∈ inputs.map Prod.snd) :
    (runRt content0 inputs).tracked = false := by
  unfold runRt
  rw [finishTimers_tracked]
  obtain ⟨p, hp, hsnd⟩ := List.mem_map.mp hmem
  obtain ⟨pre, post, rfl⟩ := List.append_of_mem hp
  unfold runRtCore
  rw [List.foldl_append, List.foldl_cons]
  apply foldl_stepInput_tracked_false
  rcases p with ⟨tp, ip⟩
  cases hsnd
  exact stepInput_removeBuffer_tracked _ tp

/-- C5 amended: across every schedule, at most one didClose is sent per
document generation, and a document that never reached `opened = true` sends
zero didClose.  A document that did reach `opened = true` sends exactly one
didClose upon buffer removal provided the language client is still present
and ready when the close task runs (here: no server exit in the schedule);
if the client is gone, the close task's guard skips the didClose (see the
counterexample). -/
theorem C5_didClose_exactly_once_amended :
    (∀ (content0 : String) (inputs : List (Nat × RtInput)),
      countWire isDidClose (runRt content0 inputs).events ≤ 1) ∧
    (∀ (content0 : String) (inputs : List (Nat × RtInput)),
      (runRt content0 inputs).opened = false →
      countWire isDidClose (runRt content0 inputs).events = 0) ∧
    (∀ (content0 : String) (inputs : List (Nat × RtInput)),
      (∀ p ∈ inputs, Prod.snd p ≠ RtInput.serverExit) →
      RtInput.removeBuffer ∈ inputs.map Prod.snd →
      (runRt content0 inputs).opened = true →
      countWire isDidClose (runRt content0 inputs).events = 1) := by
  refine ⟨?_, ?_, ?_⟩
  · intro c0 inputs
    exact (runRt_closecore c0 inputs).1
  · intro c0 inputs hop
    obtain ⟨h1, h2, -, -, -, -⟩ := runRt_closecore c0 inputs
    by_contra hne
    have hge : 1 ≤ countWire isDidClose (runRt c0 inputs).events := by omega
    rw [h2 hge] at hop
    cases hop
  · intro c0 inputs hnoexit hmem hop
    obtain ⟨-, -, h6⟩ := runRt_closefull c0 inputs hnoexit
    exact h6 hop (runRt_removeBuffer_tracked c0 inputs hmem)

/-- Witness for the amended C5: a document opened with a live client and then
removed sends exactly one didClose, and one whose buffer is removed before
the open ever resolves sends zero. -/
theorem C5_didClose_exactly_once_amended_witness :
    countWire isDidClose
        (runRt "x" [(0, .openResolve true), (5, .removeBuffer)]).events = 1 ∧
    countWire isDidClose (runRt "y" [(3, .removeBuffer)]).events = 0 :=
  ⟨C5_didClose_exactly_once_amended.2.2 "x" [(0, .openResolve true), (5, .removeBuffer)]
      (by decide) (by decide) rfl,
    C5_didClose_exactly_once_amended.2.1 "y" [(3, .removeBuffer)] rfl⟩

/-- How the `ensureClient` promise can settle (settings.ts `ensureClient` /
`startServerWithFallback`): with no client (no config, or spawn and all
fallbacks failed), with a client that is already closed — reachable because
`initialize()` returns normally on a closed client (clipboard.ts 209-213)
and because `ensureClient` returns a registered client without an `isReady`
check while `handleProcessClosed` (stdout EOF / write failure) closes a
client that only process exit removes from the registry — or with a live,
initialized client. -/
inductive OpenOutcome where
  | noClient
  | closedClient
  | liveClient
deriving DecidableEq, Repr

/-- External events of the full model of one document generation: those of
`RtInput` with the open settlement refined by `OpenOutcome`, plus
`serverRespawn` — a fresh ready client for the document's language appearing
in the registry (spawned by `ensureClient` for another buffer of the same
language after the dead client's process exit), which the notification paths
observe through `lsp.getClient`. -/
inductive RtEvent where
  | openResolve (outcome : OpenOutcome)
  | edit (newContent : String)
  | save
  | removeBuffer
  | serverExit
  | serverRespawn
deriving DecidableEq, Repr

/-- Settlement of the `ensureClient` promise at time `t` in the full model
(the `.then` continuation in `openDocument`, settings.ts 340-354).  With a
client and a still-tracked document the continuation always runs
`client.didOpen(...)` and then `current.opened = true`; when the client is
already closed, `sendNotification`'s closed-guard (clipboard.ts 376-378)
silently drops the didOpen, yet `opened` is still set — so `.closedClient`
sets the flag without a wire event.  Only `.liveClient` leaves a ready
client behind.  Tasks awaiting the open promise then resume in FIFO
order. -/
def resolveOpenFull (st : RtState) (t : Nat) (outcome : OpenOutcome) : RtState :=
  if st.openResolved then st
  else
    let ready : Bool := match outcome with | .liveClient => true | _ => false
    let st := { st with openResolved := true, clientReady := ready }
    let st :=
      match outcome with
      | .noClient => st
      | .closedClient =>
        if st.tracked then { st with opened := true } else st
      | .liveClient =>
        if st.tracked then
          { st with
            opened := true
            events := st.events ++ [(t, Wire.didOpen st.version st.content)] }
        else st
    (st.waiters).foldl (fun s w => runWaiter s t w) { st with waiters := [] }

/-- Handle one external event at time `t` in the full model; all cases other
than the open settlement and `serverRespawn` are as in `handleInput`. -/
def handleEvent (st : RtState) (t : Nat) (e : RtEvent) : RtState :=
  match e with
  | .openResolve outcome => resolveOpenFull st t outcome
  | .edit c =>
    if st.tracked then
      { st with content := c, timer := some (t + DID_CHANGE_DEBOUNCE_MS) }
    else st
  | .save =>
    if st.tracked then
      if st.openResolved then runWaiter st t .wSave
      else { st with waiters := st.waiters ++ [.wSave] }
    else st
  | .removeBuffer =>
    let st := { st with timer := none }
    if st.tracked then
      let st := { st with tracked := false }
      if st.openResolved then runWaiter st t .wClose
      else { st with waiters := st.waiters ++ [.wClose] }
    else st
  | .serverExit => { st with clientReady := false }
  | .serverRespawn => { st with clientReady := true }

/-- Process one timed event of the full model: first fire a due debounce
timer, then handle the event. -/
def stepEvent (st : RtState) (t : Nat) (e : RtEvent) : RtState :=
  let st :=
    match st.timer with
    | some d => if d ≤ t then fireTimer st d else st
    | none => st
  handleEvent st t e

/-- Run one document generation in the full model (without the trailing
timer flush). -/
def runRtFullCore (content0 : String) (evs : List (Nat × RtEvent)) : RtState :=
  evs.foldl (fun s te => stepEvent s te.1 te.2) (initRtState content0)

/-- Run one document generation in the full model to quiescence. -/
def runRtFull (content0 : String) (evs : List (Nat × RtEvent)) : RtState :=
  finishTimers (runRtFullCore content0 evs)

/-- Embedding of the restricted model's inputs into the full model:
`openResolve true` is settlement with a live client, `openResolve false`
settlement with no client. -/
def embedInput : RtInput → RtEvent
  | .openResolve ok => .openResolve (if ok then .liveClient else .noClient)
  | .edit c => .edit c
  | .save => .save
  | .removeBuffer => .removeBuffer
  | .serverExit => .serverExit

theorem handleEvent_embed (st : RtState) (t : Nat) (i : RtInput) :
    handleEvent st t (embedInput i) = handleInput st t i := by
  cases i with
  | openResolve ok =>
    cases ok with
    | false =>
      show resolveOpenFull st t .noClient = resolveOpen st t false
      unfold resolveOpenFull resolveOpen
      dsimp only
      simp
    | true =>
      show resolveOpenFull st t .liveClient = resolveOpen st t true
      unfold resolveOpenFull resolveOpen
      dsimp only
      simp
  | edit c => rfl
  | save => rfl
  | removeBuffer => rfl
  | serverExit => rfl

theorem stepEvent_embed (st : RtState) (t : Nat) (i : RtInput) :
    stepEvent st t (embedInput i) = stepInput st t i := by
  unfold stepEvent stepInput
  dsimp only
  rw [handleEvent_embed]

/-- The restricted model `runRt` is exactly the full model `runRtFull` run on
schedules whose opens settle with a live client or no client. -/
theorem runRt_is_restriction (content0 : String) (inputs : List (Nat × RtInput)) :
    runRtFull content0 (inputs.map (fun p => (p.1, embedInput p.2))) =
      runRt content0 inputs := by
  unfold runRtFull runRt runRtFullCore runRtCore
  congr 1
  rw [List.foldl_map]
  have hfold : ∀ (l : List (Nat × RtInput)) (st : RtState),
      l.foldl (fun s p => stepEvent s (p.1, embedInput p.2).1 (p.1, embedInput p.2).2) st =
        l.foldl (fun s ti => stepInput s ti.1 ti.2) st := by
    intro l
    induction l with
    | nil => intro st; rfl
    | cons p rest ih =>
      intro st
      simp only [List.foldl_cons]
      rw [show stepEvent st (p.1, embedInput p.2).1 (p.1, embedInput p.2).2 =
        stepInput st p.1 p.2 from stepEvent_embed st p.1 p.2]
      exact ih _
  exact hfold inputs _

theorem initRtState_rtinv (content0 : String) : RtInv (initRtState content0) :=
  ⟨rfl, fun h => Bool.noConfusion h⟩

theorem resolveOpenFull_inv {st : RtState} (t : Nat) (o : OpenOutcome)
    (hne : o ≠ OpenOutcome.closedClient) (hinv : RtInv st) :
    RtInv (resolveOpenFull st t o) := by
  obtain ⟨hopc, hopen⟩ := hinv
  unfold resolveOpenFull
  by_cases hr : st.openResolved = true
  · rw [if_pos hr]
    exact ⟨hopc, hopen⟩
  · rw [if_neg hr]
    dsimp only
    cases o with
    | closedClient => exact absurd rfl hne
    | noClient => exact foldl_runWaiter_inv _ t _ ⟨hopc, hopen⟩
    | liveClient =>
      dsimp only
      by_cases ht : st.tracked = true
      · rw [if_pos ht]
        apply foldl_runWaiter_inv
        refine ⟨?_, ?_⟩
        · show openPrecedesChange
            (st.events ++ [(t, Wire.didOpen st.version st.content)]) = true
          rw [opc_append_open]
          exact hopc
        · intro _
          show containsDidOpen
            (st.events ++ [(t, Wire.didOpen st.version st.content)]) = true
          rw [containsDidOpen_append]
          simp [containsDidOpen]
      · rw [if_neg ht]
        exact foldl_runWaiter_inv _ t _ ⟨hopc, hopen⟩

theorem handleEvent_inv {st : RtState} (t : Nat) (e : RtEvent)
    (hne : e ≠ RtEvent.openResolve OpenOutcome.closedClient) (hinv : RtInv st) :
    RtInv (handleEvent st t e) := by
  obtain ⟨hopc, hopen⟩ := hinv
  cases e with
  | openResolve o =>
    have ho : o ≠ OpenOutcome.closedClient := by
      intro h
      exact hne (by rw [h])
    exact resolveOpenFull_inv t o ho ⟨hopc, hopen⟩
  | edit c =>
    simp only [handleEvent]
    split
    · exact ⟨hopc, hopen⟩
    · exact ⟨hopc, hopen⟩
  | save =>
    simp only [handleEvent]
    split
    · split
      · exact runWaiter_inv t .wSave ⟨hopc, hopen⟩
      · exact ⟨hopc, hopen⟩
    · exact ⟨hopc, hopen⟩
  | removeBuffer =>
    simp only [handleEvent]
    split
    · split
      · exact runWaiter_inv t .wClose ⟨hopc, hopen⟩
      · exact ⟨hopc, hopen⟩
    · exact ⟨hopc, hopen⟩
  | serverExit => exact ⟨hopc, hopen⟩
  | serverRespawn => exact ⟨hopc, hopen⟩

theorem stepEvent_inv {st : RtState} (t : Nat) (e : RtEvent)
    (hne : e ≠ RtEvent.openResolve OpenOutcome.closedClient) (hinv : RtInv st) :
    RtInv (stepEvent st t e) := by
  unfold stepEvent
  dsimp only
  apply handleEvent_inv t e hne
  cases htm : st.timer with
  | none => exact hinv
  | some d =>
    dsimp only
    split
    · exact fireTimer_inv d hinv
    · exact hinv

theorem foldl_stepEvent_inv (evs : List (Nat × RtEvent)) :
    ∀ st : RtState,
      (∀ p ∈ evs, p.2 ≠ RtEvent.openResolve OpenOutcome.closedClient) →
      RtInv st →
      RtInv (evs.foldl (fun s te => stepEvent s te.1 te.2) st) := by
  induction evs with
  | nil =>
    intro st _ h
    exact h
  | cons p rest ih =>
    intro st hne h
    simp only [List.foldl_cons]
    apply ih
    · intro q hq
      exact hne q (List.mem_cons_of_mem _ hq)
    · exact stepEvent_inv p.1 p.2 (hne p (List.mem_cons_self _ _)) h

theorem runRtFull_inv (content0 : String) (evs : List (Nat × RtEvent))
    (hne : ∀ p ∈ evs, p.2 ≠ RtEvent.openResolve OpenOutcome.closedClient) :
    RtInv (runRtFull content0 evs) := by
  unfold runRtFull runRtFullCore
  exact finishTimers_inv
    (foldl_stepEvent_inv evs (initRtState content0) hne (initRtState_rtinv content0))

/-- Counterexample to C2 as stated: when the in-flight open settles with an
already-closed client (`initialize()` returns normally on a closed client,
clipboard.ts 209-213; `sendNotification` silently drops the didOpen,
clipboard.ts 376-378; yet `openDocument` still sets `opened = true`,
settings.ts 353), a later respawned ready client for the same language
receives the debounced didChange although no didOpen was ever sent: the wire
carries a didChange with no preceding didOpen. -/
theorem C2_counterexample :
    openPrecedesChange (runRtFull "a"
      [(0, RtEvent.openResolve OpenOutcome.closedClient),
       (1, RtEvent.serverRespawn),
       (2, RtEvent.edit "x")]).events = false ∧
    (runRtFull "a"
      [(0, RtEvent.openResolve OpenOutcome.closedClient),
       (1, RtEvent.serverRespawn),
       (2, RtEvent.edit "x")]).events = [(202, Wire.didChange 2 "x")] :=
  ⟨rfl, rfl⟩

/-- Claim C2 (amended): over every schedule of edits, saves, buffer removal,
server exits and respawns, and open settlement in which the in-flight open
does not settle with an already-closed client, a didChange notification is
never sent on the wire before the didOpen for the document: the change path
awaits the in-flight open promise and only proceeds when `opened` is true.
When the open does settle with an already-closed client, the didOpen is
silently dropped while `opened` is still set, and the ordering can be
violated. -/
theorem C2_didChange_never_before_didOpen_amended
    (content0 : String) (evs : List (Nat × RtEvent))
    (hno : ∀ p ∈ evs, p.2 ≠ RtEvent.openResolve OpenOutcome.closedClient) :
    openPrecedesChange (runRtFull content0 evs).events = true :=
  (runRtFull_inv content0 evs hno).1

/-- Witness instantiating C2 (amended) on a concrete schedule: an open that
settles with a live client followed by an edit. -/
theorem C2_didChange_never_before_didOpen_amended_witness :
    (∀ p ∈ ([(0, RtEvent.openResolve OpenOutcome.liveClient),
             (5, RtEvent.edit "x")] : List (Nat × RtEvent)),
        p.2 ≠ RtEvent.openResolve OpenOutcome.closedClient) ∧
    openPrecedesChange (runRtFull "a"
      [(0, RtEvent.openResolve OpenOutcome.liveClient),
       (5, RtEvent.edit "x")]).events = true :=
  ⟨by decide, C2_didChange_never_before_didOpen_amended "a" _ (by decide)⟩

/-- Unconditional bookkeeping invariant of the full model: the version counter
equals 1 plus the number of didChange notifications handed to the client so
far, and any didOpen actually sent implies the `opened` flag is set (the
converse can fail when the open settles with an already-closed client). -/
def FullVerInv (st : RtState) : Prop :=
  st.version = 1 + countWire isDidChange st.events ∧
  (containsDidOpen st.events = true → st.opened = true)

theorem initRtState_fullver (content0 : String) : FullVerInv (initRtState content0) :=
  ⟨rfl, fun h => Bool.noConfusion h⟩

theorem runWaiter_fullver {st : RtState} (t : Nat) (w : Waiter) (hinv : FullVerInv st) :
    FullVerInv (runWaiter st t w) := by
  obtain ⟨hver, hop⟩ := hinv
  cases w with
  | wChange =>
    simp only [runWaiter]
    by_cases hguard : (st.tracked && st.opened && st.clientReady) = true
    · rw [if_pos hguard]
      constructor
      · show st.version + 1 =
          1 + countWire isDidChange (st.events ++ [(t, .didChange (st.version + 1) st.content)])
        rw [countWire_append, hver]
        rfl
      · intro hc
        show st.opened = true
        apply hop
        rw [containsDidOpen_append] at hc
        simpa [containsDidOpen] using hc
    · rw [if_neg hguard]
      exact ⟨hver, hop⟩
  | wSave =>
    simp only [runWaiter]
    by_cases hguard : (st.tracked && st.opened && st.clientReady) = true
    · rw [if_pos hguard]
      constructor
      · show st.version = 1 + countWire isDidChange (st.events ++ [(t, .didSave st.content)])
        rw [countWire_append, hver]
        rfl
      · intro hc
        show st.opened = true
        apply hop
        rw [containsDidOpen_append] at hc
        simpa [containsDidOpen] using hc
    · rw [if_neg hguard]
      exact ⟨hver, hop⟩
  | wClose =>
    simp only [runWaiter]
    by_cases hguard : (st.opened && st.clientReady) = true
    · rw [if_pos hguard]
      constructor
      · show st.version = 1 + countWire isDidChange (st.events ++ [(t, .didClose)])
        rw [countWire_append, hver]
        rfl
      · intro hc
        show st.opened = true
        apply hop
        rw [containsDidOpen_append] at hc
        simpa [containsDidOpen] using hc
    · rw [if_neg hguard]
      exact ⟨hver, hop⟩

theorem foldl_runWaiter_fullver (ws : List Waiter) (t : Nat) :
    ∀ st : RtState, FullVerInv st →
      FullVerInv (ws.foldl (fun s w => runWaiter s t w) st) := by
  induction ws with
  | nil => intro st h; exact h
  | cons w rest ih =>
    intro st h
    exact ih _ (runWaiter_fullver t w h)

theorem fireTimer_fullver {st : RtState} (d : Nat) (hinv : FullVerInv st) :
    FullVerInv (fireTimer st d) := by
  obtain ⟨hver, hop⟩ := hinv
  unfold fireTimer
  by_cases ht : st.tracked
  · simp only [ht, if_true]
    by_cases hr : st.openResolved
    · simp only [hr, if_true]
      exact runWaiter_fullver d .wChange ⟨hver, hop⟩
    · simp only [hr, if_false]
      exact ⟨hver, hop⟩
  · simp only [ht, if_false]
    exact ⟨hver, hop⟩

theorem finishTimers_fullver {st : RtState} (hinv : FullVerInv st) :
    FullVerInv (finishTimers st) := by
  unfold finishTimers
  cases htm : st.timer with
  | none => exact hinv
  | some d => exact fireTimer_fullver d hinv

theorem resolveOpenFull_fullver {st : RtState} (t : Nat) (o : OpenOutcome)
    (hinv : FullVerInv st) : FullVerInv (resolveOpenFull st t o) := by
  obtain ⟨hver, hop⟩ := hinv
  unfold resolveOpenFull
  by_cases hr : st.openResolved = true
  · rw [if_pos hr]
    exact ⟨hver, hop⟩
  · rw [if_neg hr]
    dsimp only
    cases o with
    | noClient => exact foldl_runWaiter_fullver _ t _ ⟨hver, hop⟩
    | closedClient =>
      dsimp only
      by_cases ht : st.tracked = true
      · rw [if_pos ht]
        apply foldl_runWaiter_fullver
        refine ⟨hver, ?_⟩
        intro _
        rfl
      · rw [if_neg ht]
        exact foldl_runWaiter_fullver _ t _ ⟨hver, hop⟩
    | liveClient =>
      dsimp only
      by_cases ht : st.tracked = true
      · rw [if_pos ht]
        apply foldl_runWaiter_fullver
        refine ⟨?_, ?_⟩
        · show st.version =
            1 + countWire isDidChange (st.events ++ [(t, Wire.didOpen st.version st.content)])
          rw [countWire_append, hver]
          rfl
        · intro _
          rfl
      · rw [if_neg ht]
        exact foldl_runWaiter_fullver _ t _ ⟨hver, hop⟩

theorem handleEvent_fullver {st : RtState} (t : Nat) (e : RtEvent)
    (hinv : FullVerInv st) : FullVerInv (handleEvent st t e) := by
  obtain ⟨hver, hop⟩ := hinv
  cases e with
  | openResolve o => exact resolveOpenFull_fullver t o ⟨hver, hop⟩
  | edit c =>
    simp only [handleEvent]
    split
    · exact ⟨hver, hop⟩
    · exact ⟨hver, hop⟩
  | save =>
    simp only [handleEvent]
    split
    · split
      · exact runWaiter_fullver t .wSave ⟨hver, hop⟩
      · exact ⟨hver, hop⟩
    · exact ⟨hver, hop⟩
  | removeBuffer =>
    simp only [handleEvent]
    split
    · split
      · exact runWaiter_fullver t .wClose ⟨hver, hop⟩
      · exact ⟨hver, hop⟩
    · exact ⟨hver, hop⟩
  | serverExit => exact ⟨hver, hop⟩
  | serverRespawn => exact ⟨hver, hop⟩

theorem stepEvent_fullver {st : RtState} (t : Nat) (e : RtEvent)
    (hinv : FullVerInv st) : FullVerInv (stepEvent st t e) := by
  unfold stepEvent
  dsimp only
  apply handleEvent_fullver t e
  cases htm : st.timer with
  | none => exact hinv
  | some d =>
    dsimp only
    split
    · exact fireTimer_fullver d hinv
    · exact hinv

theorem foldl_stepEvent_fullver (evs : List (Nat × RtEvent)) :
    ∀ st : RtState, FullVerInv st →
      FullVerInv (evs.foldl (fun s te => stepEvent s te.1 te.2) st) := by
  induction evs with
  | nil => intro st h; exact h
  | cons p rest ih =>
    intro st h
    simp only [List.foldl_cons]
    exact ih _ (stepEvent_fullver p.1 p.2 h)

theorem runRtFull_fullver (content0 : String) (evs : List (Nat × RtEvent)) :
    FullVerInv (runRtFull content0 evs) := by
  unfold runRtFull runRtFullCore
  exact finishTimers_fullver
    (foldl_stepEvent_fullver evs (initRtState content0) (initRtState_fullver content0))

theorem resolveOpenFull_version_mono (st : RtState) (t : Nat) (o : OpenOutcome) :
    st.version ≤ (resolveOpenFull st t o).version := by
  unfold resolveOpenFull
  by_cases hr : st.openResolved = true
  · rw [if_pos hr]
  · rw [if_neg hr]
    dsimp only
    cases o with
    | noClient =>
      exact foldl_runWaiter_version_mono st.waiters t
        { st with openResolved := true, clientReady := false, waiters := [] }
    | closedClient =>
      dsimp only
      by_cases ht : st.tracked = true
      · rw [if_pos ht]
        exact foldl_runWaiter_version_mono st.waiters t
          { st with openResolved := true, clientReady := false, opened := true, waiters := [] }
      · rw [if_neg ht]
        exact foldl_runWaiter_version_mono st.waiters t
          { st with openResolved := true, clientReady := false, waiters := [] }
    | liveClient =>
      dsimp only
      by_cases ht : st.tracked = true
      · rw [if_pos ht]
        exact foldl_runWaiter_version_mono st.waiters t
          { st with openResolved := true, clientReady := true, opened := true, events := st.events ++ [(t, Wire.didOpen st.version st.content)], waiters := [] }
      · rw [if_neg ht]
        exact foldl_runWaiter_version_mono st.waiters t
          { st with openResolved := true, clientReady := true, waiters := [] }

theorem handleEvent_version_mono (st : RtState) (t : Nat) (e : RtEvent) :
    st.version ≤ (handleEvent st t e).version := by
  cases e with
  | openResolve o => exact resolveOpenFull_version_mono st t o
  | edit c =>
    simp only [handleEvent]
    split
    · exact le_refl _
    · exact le_refl _
  | save =>
    simp only [handleEvent]
    split
    · split
      · exact runWaiter_version_mono st t .wSave
      · exact le_refl _
    · exact le_refl _
  | removeBuffer =>
    simp only [handleEvent]
    split
    · split
      · exact runWaiter_version_mono { st with timer := none, tracked := false } t .wClose
      · exact le_refl _
    · exact le_refl _
  | serverExit => exact le_refl _
  | serverRespawn => exact le_refl _

theorem stepEvent_version_mono (st : RtState) (t : Nat) (e : RtEvent) :
    st.version ≤ (stepEvent st t e).version := by
  unfold stepEvent
  dsimp only
  cases htm : st.timer with
  | none => exact handleEvent_version_mono st t e
  | some d =>
    dsimp only
    split
    · exact le_trans (fireTimer_version_mono st d) (handleEvent_version_mono _ t e)
    · exact handleEvent_version_mono st t e

theorem foldl_stepEvent_version_mono (evs : List (Nat × RtEvent)) :
    ∀ st : RtState,
      st.version ≤ (evs.foldl (fun s te => stepEvent s te.1 te.2) st).version := by
  induction evs with
  | nil => intro st; exact le_refl _
  | cons p rest ih =>
    intro st
    simp only [List.foldl_cons]
    exact le_trans (stepEvent_version_mono st p.1 p.2) (ih _)

theorem initRtState_verinv (content0 : String) : VerInv (initRtState content0) :=
  ⟨rfl, rfl⟩

theorem finishTimers_verinv {st : RtState} (hinv : VerInv st) :
    VerInv (finishTimers st) := by
  unfold finishTimers
  cases htm : st.timer with
  | none => exact hinv
  | some d => exact fireTimer_verinv d hinv

theorem resolveOpenFull_verinv {st : RtState} (t : Nat) (o : OpenOutcome)
    (hne : o ≠ OpenOutcome.closedClient) (hinv : VerInv st) :
    VerInv (resolveOpenFull st t o) := by
  obtain ⟨hver, hop⟩ := hinv
  unfold resolveOpenFull
  by_cases hr : st.openResolved = true
  · rw [if_pos hr]
    exact ⟨hver, hop⟩
  · rw [if_neg hr]
    dsimp only
    cases o with
    | closedClient => exact absurd rfl hne
    | noClient => exact foldl_runWaiter_verinv _ t _ ⟨hver, hop⟩
    | liveClient =>
      dsimp only
      by_cases ht : st.tracked = true
      · rw [if_pos ht]
        apply foldl_runWaiter_verinv
        refine ⟨?_, ?_⟩
        · show st.version =
            1 + countWire isDidChange (st.events ++ [(t, Wire.didOpen st.version st.content)])
          rw [countWire_append, hver]
          rfl
        · show true =
            containsDidOpen (st.events ++ [(t, Wire.didOpen st.version st.content)])
          rw [containsDidOpen_append]
          simp [containsDidOpen]
      · rw [if_neg ht]
        exact foldl_runWaiter_verinv _ t _ ⟨hver, hop⟩

theorem handleEvent_verinv {st : RtState} (t : Nat) (e : RtEvent)
    (hne : e ≠ RtEvent.openResolve OpenOutcome.closedClient) (hinv : VerInv st) :
    VerInv (handleEvent st t e) := by
  obtain ⟨hver, hop⟩ := hinv
  cases e with
  | openResolve o =>
    have ho : o ≠ OpenOutcome.closedClient := by
      intro h
      exact hne (by rw [h])
    exact resolveOpenFull_verinv t o ho ⟨hver, hop⟩
  | edit c =>
    simp only [handleEvent]
    split
    · exact ⟨hver, hop⟩
    · exact ⟨hver, hop⟩
  | save =>
    simp only [handleEvent]
    split
    · split
      · exact runWaiter_verinv t .wSave ⟨hver, hop⟩
      · exact ⟨hver, hop⟩
    · exact ⟨hver, hop⟩
  | removeBuffer =>
    simp only [handleEvent]
    split
    · split
      · exact runWaiter_verinv t .wClose ⟨hver, hop⟩
      · exact ⟨hver, hop⟩
    · exact ⟨hver, hop⟩
  | serverExit => exact ⟨hver, hop⟩
  | serverRespawn => exact ⟨hver, hop⟩

theorem stepEvent_verinv {st : RtState} (t : Nat) (e : RtEvent)
    (hne : e ≠ RtEvent.openResolve OpenOutcome.closedClient) (hinv : VerInv st) :
    VerInv (stepEvent st t e) := by
  unfold stepEvent
  dsimp only
  apply handleEvent_verinv t e hne
  cases htm : st.timer with
  | none => exact hinv
  | some d =>
    dsimp only
    split
    · exact fireTimer_verinv d hinv
    · exact hinv

theorem foldl_stepEvent_verinv (evs : List (Nat × RtEvent)) :
    ∀ st : RtState,
      (∀ p ∈ evs, p.2 ≠ RtEvent.openResolve OpenOutcome.closedClient) →
      VerInv st →
      VerInv (evs.foldl (fun s te => stepEvent s te.1 te.2) st) := by
  induction evs with
  | nil =>
    intro st _ h
    exact h
  | cons p rest ih =>
    intro st hne h
    simp only [List.foldl_cons]
    apply ih
    · intro q hq
      exact hne q (List.mem_cons_of_mem _ hq)
    · exact stepEvent_verinv p.1 p.2 (hne p (List.mem_cons_self _ _)) h

theorem runRtFull_verinv (content0 : String) (evs : List (Nat × RtEvent))
    (hne : ∀ p ∈ evs, p.2 ≠ RtEvent.openResolve OpenOutcome.closedClient) :
    VerInv (runRtFull content0 evs) := by
  unfold runRtFull runRtFullCore
  exact finishTimers_verinv
    (foldl_stepEvent_verinv evs (initRtState content0) hne (initRtState_verinv content0))

/-- Counterexample to C7 as stated: the conjunct "opened becomes true only
after the didOpen notification is actually sent" fails when the in-flight
open settles with an already-closed client — `client.didOpen` is silently
dropped by `sendNotification`'s closed-guard (clipboard.ts 376-378) while
`openDocument`'s continuation still sets `current.opened = true`
(settings.ts 353): opened is true yet no didOpen was ever sent. -/
theorem C7_counterexample :
    (runRtFull "a" [(0, RtEvent.openResolve OpenOutcome.closedClient)]).opened = true ∧
    containsDidOpen
      (runRtFull "a" [(0, RtEvent.openResolve OpenOutcome.closedClient)]).events = false :=
  ⟨rfl, rfl⟩

/-- Claim C7 (amended): over every schedule of the full model, (i) the version
counter equals 1 plus the number of didChange notifications handed to the
client, so it is incremented exactly in the synchronous continuation that
transmits a didChange; (ii) the version is monotonically non-decreasing over
the document's lifetime (any extension of the schedule); (iii) a didOpen
actually sent implies `opened` is set in that same step; and (iv) on
schedules where the in-flight open never settles with an already-closed
client, `opened` is true exactly when the didOpen was actually sent.  When
the open does settle with a closed client, `opened` becomes true although the
didOpen was silently dropped. -/
theorem C7_version_monotonic_opened_amended
    (content0 : String) (evs : List (Nat × RtEvent)) :
    (runRtFull content0 evs).version =
        1 + countWire isDidChange (runRtFull content0 evs).events ∧
    (∀ more : List (Nat × RtEvent),
        (runRtFullCore content0 evs).version ≤
          (runRtFullCore content0 (evs ++ more)).version) ∧
    (containsDidOpen (runRtFull content0 evs).events = true →
        (runRtFull content0 evs).opened = true) ∧
    ((∀ p ∈ evs, p.2 ≠ RtEvent.openResolve OpenOutcome.closedClient) →
        (runRtFull content0 evs).opened =
          containsDidOpen (runRtFull content0 evs).events) := by
  refine ⟨?_, ?_, ?_, ?_⟩
  · exact (runRtFull_fullver content0 evs).1
  · intro more
    unfold runRtFullCore
    rw [List.foldl_append]
    exact foldl_stepEvent_version_mono more _
  · exact (runRtFull_fullver content0 evs).2
  · intro hno
    exact (runRtFull_verinv content0 evs hno).2

/-- Witness instantiating C7 (amended) on a concrete schedule: an open that
settles with a live client followed by an edit; the inner hypotheses of
conjuncts (iii) and (iv) are discharged concretely. -/
theorem C7_version_monotonic_opened_amended_witness :
    ((runRtFull "a" [(0, RtEvent.openResolve OpenOutcome.liveClient),
        (5, RtEvent.edit "x")]).opened =
      containsDidOpen (runRtFull "a" [(0, RtEvent.openResolve OpenOutcome.liveClient),
        (5, RtEvent.edit "x")]).events) ∧
    ((runRtFull "a" [(0, RtEvent.openResolve OpenOutcome.liveClient),
        (5, RtEvent.edit "x")]).opened = true) ∧
    ((runRtFullCore "a" [(0, RtEvent.openResolve OpenOutcome.liveClient)]).version ≤
      (runRtFullCore "a" ([(0, RtEvent.openResolve OpenOutcome.liveClient)] ++
        [(5, RtEvent.edit "x")])).version) :=
  ⟨(C7_version_monotonic_opened_amended "a" _).2.2.2 (by decide),
   (C7_version_monotonic_opened_amended "a"
      [(0, RtEvent.openResolve OpenOutcome.liveClient), (5, RtEvent.edit "x")]).2.2.1 rfl,
   (C7_version_monotonic_opened_amended "a" [(0, RtEvent.openResolve OpenOutcome.liveClient)]).2.1
      [(5, RtEvent.edit "x")]⟩
